import Mathlib

/-!
Verification development for the `icon` crate (XDG icon theme resolution).

This file is a shallow embedding, in Lean 4, of the crate's core:

* `src/theme.rs` : `DirectoryIndex::{matches_size, size_distance}`,
  `Theme::{find_icon, find_icon_here}`, the `Theme`/`ThemeInfo`/`ThemeIndex`
  data model;
* `src/icon.rs` : `IconFile::{from_path, from_path_buf}`,
  `FileType::from_path_ext`, `Icons::find_icon`;
* `src/cache.rs` : `ThemeCache::{find_icon, find_icon_here}`,
  `IconsCache::find_icon`;
* `src/search.rs` : `IconLocations::resolve_only`.

Modelling conventions:

* Rust `u32` values are `Nat`s; every operation that can overflow or
  underflow in Rust is performed modulo `2 ^ 32` (this is release-mode
  wrapping semantics; in debug mode the same inputs panic — either way the
  code departs from exact integer arithmetic at those inputs,
  which is what matters for the claims below).
* The filesystem is an abstract predicate `PathM → Bool` saying which
  files exist.  Paths built by the crate are `base_dir/sub_dir/file_name`
  triples; `file_name`-level stem/extension splitting follows
  `std::path` semantics (`split_file_at_dot`).
* Rust `HashMap` iteration order is unspecified; the embedding
  determinizes it as insertion order.  No claim below depends on a
  particular order.
* Panics (`unwrap` on `None`, out-of-bounds indexing) are modelled by
  `Option`-valued functions returning `none`.
* Fallible external I/O (descriptor loading/parsing) is abstracted as an
  `Option`-valued source with finite support, matching how
  `IconLocations::load_single_theme` can only succeed for names present
  in `themes_directories`.
-/

/-! ## u32 arithmetic (release-mode wrapping semantics) -/

def U32 : Nat := 4294967296

def U32MAX : Nat := 4294967295

/-- Reduce a value into u32 range. -/
def u32wrap (x : Nat) : Nat := x % U32

/-- Rust u32 multiplication (wrapping). -/
def u32mul (a b : Nat) : Nat := u32wrap (a * b)

/-- Rust u32 addition (wrapping). -/
def u32add (a b : Nat) : Nat := u32wrap (a + b)

/-- Rust u32 subtraction (wrapping): `a - b` computed modulo `2^32`. -/
def u32sub (a b : Nat) : Nat := u32wrap (u32wrap a + (U32 - u32wrap b))

/-- `u32::abs_diff`. -/
def abs_diff (a b : Nat) : Nat := max a b - min a b

/-! ## `DirectoryIndex` (src/theme.rs) -/

/-- `DirectoryType` from src/theme.rs. -/
inductive DirectoryType where
  | Fixed
  | Scalable
  | Threshold
deriving DecidableEq, Repr

/-- `DirectoryIndex` from src/theme.rs (field for field). -/
structure DirectoryIndex where
  directory_name : String
  is_scaled_dir : Bool
  size : Nat
  scale : Nat
  context : Option String
  directory_type : DirectoryType
  max_size : Nat
  min_size : Nat
  threshold : Nat
deriving DecidableEq, Repr

/-- `DirectoryIndex::size_distance` from src/theme.rs, lines 366-386.
The `(self.size - self.threshold)` subtraction and all multiplications are
u32 operations and are modelled with wrapping semantics. -/
def DirectoryIndex.size_distance (d : DirectoryIndex) (icon_size icon_scale : Nat) : Nat :=
  let size := u32mul icon_size icon_scale
  match d.directory_type with
  | .Fixed | .Scalable => abs_diff (u32mul d.size d.scale) size
  | .Threshold =>
    let lower := u32mul (u32sub d.size d.threshold) d.scale
    let higher := u32mul (u32add d.size d.threshold) d.scale
    if size < lower then abs_diff size (u32mul d.min_size d.scale)
    else if higher < size then abs_diff size (u32mul d.max_size d.scale)
    else 0

/-- `DirectoryIndex::matches_size` from src/theme.rs, lines 398-421. -/
def DirectoryIndex.matches_size (d : DirectoryIndex) (icon_size icon_scale : Nat) : Bool :=
  if d.scale ≠ icon_scale then false
  else
    match d.directory_type with
    | .Fixed => d.size == icon_size
    | .Scalable => decide (d.min_size ≤ icon_size) && decide (icon_size ≤ d.max_size)
    | .Threshold => decide (abs_diff d.size icon_size ≤ d.threshold)

/-- The Threshold-kind distance formula as §4.2 of the specification states
it, in exact (non-wrapping) integer arithmetic: distance 0 when the
requested `size*scale` lies within `[(size-threshold)*scale,
(size+threshold)*scale]`, the gap to `min_size*scale` below that band, and
the gap to `max_size*scale` above it. -/
def specThresholdDistance (d : DirectoryIndex) (icon_size icon_scale : Nat) : Int :=
  let req : Int := (icon_size : Int) * (icon_scale : Int)
  let lower : Int := ((d.size : Int) - (d.threshold : Int)) * (d.scale : Int)
  let higher : Int := ((d.size : Int) + (d.threshold : Int)) * (d.scale : Int)
  if req < lower then ((d.min_size : Int) * (d.scale : Int) - req).natAbs
  else if higher < req then (req - (d.max_size : Int) * (d.scale : Int)).natAbs
  else 0

/-! ### Concrete directories used in counterexamples and witnesses -/

/-- A Fixed directory of nominal size 32 at scale 1. -/
def fdir32 : DirectoryIndex :=
  ⟨"32x32/apps", false, 32, 1, none, .Fixed, 32, 32, 2⟩

/-- A Threshold directory of nominal size 32, threshold 2, scale 1. -/
def tdir32 : DirectoryIndex :=
  ⟨"32x32/apps", false, 32, 1, none, .Threshold, 32, 32, 2⟩

/-- A Threshold directory whose threshold (5) exceeds its nominal size (2). -/
def tdirUnder : DirectoryIndex :=
  ⟨"tiny", false, 2, 1, none, .Threshold, 2, 2, 5⟩

/-! ## Paths, file stems and extensions (std::path semantics)

A path constructed by the crate is a `base_dir/sub_dir/file_name` triple.
`PathM.file` is the path's final component (Rust `file_name()`); the empty
string stands for a path with no file name.  `splitFileAtDot` follows
`std::path`'s `split_file_at_dot`: no embedded dot, or a leading dot with
no other dot, means no extension; otherwise the split is at the last dot. -/

structure PathM where
  base : String
  dir : String
  file : String
deriving DecidableEq, Repr

def asciiLowerChar (c : Char) : Char :=
  if 'A' ≤ c ∧ c ≤ 'Z' then Char.ofNat (c.toNat + 32) else c

/-- `str::eq_ignore_ascii_case`. -/
def eqIgnoreAsciiCase (a b : String) : Bool :=
  a.toList.map asciiLowerChar == b.toList.map asciiLowerChar

/-- Index of the last `.` in a file name, if any. -/
def lastIndexOfDot (cs : List Char) : Option Nat :=
  (cs.reverse.findIdx? (fun c => c == '.')).map (fun i => cs.length - 1 - i)

/-- `std::path`'s `split_file_at_dot`: stem and optional extension. -/
def splitFileAtDot (cs : List Char) : List Char × Option (List Char) :=
  if cs = ['.', '.'] then (cs, none)
  else
    match lastIndexOfDot cs with
    | none => (cs, none)
    | some 0 => (cs, none)
    | some (j + 1) => (cs.take (j + 1), some (cs.drop (j + 2)))

/-- Rust `Path::file_stem` on the final component (`none` when there is no
file name). -/
def fileStem (name : String) : Option String :=
  if name = "" then none else some (String.mk (splitFileAtDot name.toList).1)

/-- Rust `Path::extension` on the final component. -/
def fileExtension (name : String) : Option String :=
  if name = "" then none else ((splitFileAtDot name.toList).2).map String.mk

/-! ## `FileType` and `IconFile` (src/icon.rs) -/

inductive FileType where
  | Png
  | Xpm
  | Svg
deriving DecidableEq, Repr

/-- `FileType::from_path_ext` from src/icon.rs, lines 256-269 (the UTF-8
check `to_str()` always succeeds in this model, where file names are
already strings). -/
def FileType.from_path_ext (name : String) : Option FileType :=
  match fileExtension name with
  | none => none
  | some ext =>
    if eqIgnoreAsciiCase ext "png" then some .Png
    else if eqIgnoreAsciiCase ext "xpm" then some .Xpm
    else if eqIgnoreAsciiCase ext "svg" then some .Svg
    else none

/-- `IconFile` from src/icon.rs: a path plus its detected file type. -/
structure IconFile where
  path : PathM
  file_type : FileType
deriving DecidableEq, Repr

/-- `IconFile::from_path_buf` from src/icon.rs, lines 220-230
(`IconFile::from_path` delegates to it; the two coincide here). -/
def IconFile.from_path (p : PathM) : Option IconFile :=
  match fileStem p.file with
  | none => none
  | some _ =>
    match FileType.from_path_ext p.file with
    | none => none
    | some ft => some ⟨p, ft⟩

/-! ## Theme data model (src/theme.rs)

`ThemeIndex` carries the same fields as the Rust struct (the Rust field
`example` is a Lean keyword and is called `example_icon` here);
`ThemeInfo.index_location` is path bookkeeping never read by the matching
or resolution logic and is omitted. -/

structure ThemeIndex where
  name : String
  comment : String
  inherits : List String
  directories : List DirectoryIndex
  hidden : Bool
  example_icon : Option String
deriving DecidableEq, Repr

structure ThemeInfo where
  internal_name : String
  base_dirs : List String
  index : ThemeIndex
deriving DecidableEq, Repr

/-- `Theme` from src/theme.rs: its info plus shared references to the
already-resolved ancestor themes (`inherits_from`).  The `Arc` sharing is
modelled by plain nesting: the resolver builds each node from
already-built nodes, exactly as the Rust code does. -/
inductive Theme where
  | mk (info : ThemeInfo) (inherits_from : List Theme)

def Theme.info : Theme → ThemeInfo
  | .mk i _ => i

def Theme.inherits_from : Theme → List Theme
  | .mk _ ps => ps

/-- Transitive reachability along `inherits_from` references: `Ancestor t q`
holds when following ancestor references from `t` (one or more steps)
reaches `q`. -/
inductive Ancestor : Theme → Theme → Prop where
  | direct {t p : Theme} : p ∈ t.inherits_from → Ancestor t p
  | step {t p q : Theme} : p ∈ t.inherits_from → Ancestor p q → Ancestor t q

/-! ## The icon matcher (src/theme.rs, `Theme::find_icon_here`) -/

/-- `EXTENSIONS` from `Theme::find_icon_here` (canonical order). -/
def EXTENSIONS : List String := ["png", "xpm", "svg"]

/-- The candidate file names `{icon_name}.{ext}`. -/
def fileNamesFor (icon_name : String) : List String :=
  EXTENSIONS.map (fun e => icon_name ++ "." ++ e)

/-- `base_dir.join(sub_dir.directory_name).join(file_name)`. -/
def iconPath (base dirName fn : String) : PathM := ⟨base, dirName, fn⟩

/-- `path.exists() && let Some(file) = IconFile::from_path(&path)`. -/
def checkFile (fs : PathM → Bool) (p : PathM) : Option IconFile :=
  if fs p then IconFile.from_path p else none

/-- The exact-match pass of `Theme::find_icon_here` (lines 56-71): first
base dir, first directory (declaration order) whose `matches_size` holds,
first extension in canonical order. -/
def ThemeInfo.findExact (info : ThemeInfo) (fs : PathM → Bool) (nm : String)
    (size scale : Nat) : Option IconFile :=
  let fns := fileNamesFor nm
  let exactDirs := info.index.directories.filter (fun d => d.matches_size size scale)
  info.base_dirs.findSome? (fun base =>
    exactDirs.findSome? (fun d =>
      fns.findSome? (fun fn => checkFile fs (iconPath base d.directory_name fn))))

/-- The scan order of the closest-match pass: base dirs (outer) crossed
with all directories in declaration order (inner). -/
def scanPairs (info : ThemeInfo) : List (String × DirectoryIndex) :=
  info.base_dirs.flatMap (fun base =>
    info.index.directories.map (fun d => (base, d)))

/-- One step of the closest-match pass (lines 79-97): when the directory's
distance is strictly below the minimum so far, every existing valid file
in it (each extension in order) overwrites the remembered best. -/
def closestStep (fs : PathM → Bool) (nm : String) (size scale : Nat)
    (st : Nat × Option IconFile) (bd : String × DirectoryIndex) : Nat × Option IconFile :=
  let dist := bd.2.size_distance size scale
  if dist < st.1 then
    (fileNamesFor nm).foldl (fun st2 fn =>
      match checkFile fs (iconPath bd.1 bd.2.directory_name fn) with
      | some f => (dist, some f)
      | none => st2) st
  else st

/-- The closest-match pass of `Theme::find_icon_here` (lines 75-99), with
`min_dist` initialized to `u32::MAX`. -/
def ThemeInfo.findClosest (info : ThemeInfo) (fs : PathM → Bool) (nm : String)
    (size scale : Nat) : Option IconFile :=
  ((scanPairs info).foldl (closestStep fs nm size scale) (U32MAX, none)).2

/-- `Theme::find_icon_here` from src/theme.rs, lines 44-100. -/
def ThemeInfo.find_icon_here (info : ThemeInfo) (fs : PathM → Bool) (nm : String)
    (size scale : Nat) : Option IconFile :=
  match info.findExact fs nm size scale with
  | some f => some f
  | none => info.findClosest fs nm size scale

def Theme.find_icon_here (t : Theme) (fs : PathM → Bool) (nm : String)
    (size scale : Nat) : Option IconFile :=
  t.info.find_icon_here fs nm size scale

/-- `Theme::find_icon` from src/theme.rs, lines 32-39: this theme first,
then each ancestor's `find_icon_here` in chain order. -/
def Theme.find_icon (t : Theme) (fs : PathM → Bool) (nm : String)
    (size scale : Nat) : Option IconFile :=
  match t.find_icon_here fs nm size scale with
  | some f => some f
  | none => t.inherits_from.findSome? (fun p => p.find_icon_here fs nm size scale)

/-! ### Reference notions for the closest-match pass (§4.3 step 2)

`dirFiles` lists the existing valid files for the icon name in one
`(base dir, directory)` pair, in extension order; a pair is a candidate
when this list is nonempty. -/

def dirFiles (fs : PathM → Bool) (nm : String) (bd : String × DirectoryIndex) :
    List IconFile :=
  (fileNamesFor nm).filterMap (fun fn => checkFile fs (iconPath bd.1 bd.2.directory_name fn))

/-- The adoption scan described by §4.3 step 2: walk the pairs in order,
adopting a pair exactly when it has a file and its distance is strictly
below the minimum seen so far; the result is the last adopted pair, i.e.
the first pair attaining the minimum. -/
def adoptScan (fs : PathM → Bool) (nm : String) (size scale : Nat) :
    Nat → List (String × DirectoryIndex) → Option (String × DirectoryIndex)
  | _, [] => none
  | m, bd :: rest =>
    if (dirFiles fs nm bd).isEmpty = false ∧ bd.2.size_distance size scale < m then
      match adoptScan fs nm size scale (bd.2.size_distance size scale) rest with
      | none => some bd
      | some q => some q
    else adoptScan fs nm size scale m rest

/-! ## The lookup cache (src/cache.rs) -/

/-- `DirectoryRef` is an index into `theme.info.index.directories`; a cache
maps icon names to the full candidate list for that name. -/
abbrev ThemeCacheSt := List (String × List (Nat × IconFile))

/-- Modelled from the spec: `Theme::find_icon_files` and `DirectoryRef`
(src/theme.rs) are referenced by `ThemeCache::find_icon_here` in
src/cache.rs but their definitions are not among the provided sources.
Per §4.4 and the `CacheEntry` data model, the first lookup for an icon
name collects every `(directory reference, resolved file)` candidate in
the theme's own directories — the same scan §4.3 performs (base
locations, then directories in declaration order, then extensions in
canonical order), collecting every candidate instead of stopping
early. -/
def ThemeInfo.find_icon_files (info : ThemeInfo) (fs : PathM → Bool) (nm : String) :
    List (Nat × IconFile) :=
  info.base_dirs.flatMap (fun base =>
    info.index.directories.enum.flatMap (fun di =>
      (fileNamesFor nm).filterMap (fun fn =>
        (checkFile fs (iconPath base di.2.directory_name fn)).map (fun f => (di.1, f)))))

def defaultDir : DirectoryIndex := ⟨"", false, 0, 0, none, .Threshold, 0, 0, 0⟩

/-- `self.theme.info.index.directories[*dir]`: the indices stored in the
cache always come from `find_icon_files` and are in bounds; out-of-bounds
access (a panic in Rust) cannot occur in reachable cache states, and is
given the irrelevant `defaultDir` here. -/
def dirAt (info : ThemeInfo) (i : Nat) : DirectoryIndex :=
  (info.index.directories[i]?).getD defaultDir

/-- Rust `Iterator::min_by_key`: the first element attaining the minimum
key (later elements replace the accumulator only when strictly smaller). -/
def minByFirst (key : α → Nat) (l : List α) : Option α :=
  l.foldl (fun acc x =>
    match acc with
    | none => some x
    | some y => if key x < key y then some x else acc) none

def cacheLookup (c : ThemeCacheSt) (nm : String) : Option (List (Nat × IconFile)) :=
  (c.find? (fun e => e.1 == nm)).map (fun e => e.2)

/-- `ThemeCache` from src/cache.rs: the theme plus the per-icon-name
candidate cache (a `qp_trie` in Rust, an association list here). -/
structure ThemeCache where
  theme : Theme
  cache : ThemeCacheSt

/-- `ThemeCache::find_icon_here` from src/cache.rs, lines 141-169: populate
the entry on first query, then serve the exact-match scan and, failing
that, a `min_by_key` over the cached candidate list. -/
def ThemeCache.find_icon_here (tc : ThemeCache) (fs : PathM → Bool) (nm : String)
    (size scale : Nat) : Option IconFile × ThemeCache :=
  let entry :=
    match cacheLookup tc.cache nm with
    | some fl => (fl, tc.cache)
    | none =>
      let fl := tc.theme.info.find_icon_files fs nm
      (fl, tc.cache ++ [(nm, fl)])
  let tc' : ThemeCache := ⟨tc.theme, entry.2⟩
  match entry.1.find? (fun df => (dirAt tc.theme.info df.1).matches_size size scale) with
  | some df => (some df.2, tc')
  | none =>
    ((minByFirst (fun df => (dirAt tc.theme.info df.1).size_distance size scale) entry.1).map
      (fun df => df.2), tc')

/-- `ThemeCache::find_icon` from src/cache.rs, lines 126-134: the own-theme
cached lookup first, then each ancestor's (uncached) `find_icon_here`. -/
def ThemeCache.find_icon (tc : ThemeCache) (fs : PathM → Bool) (nm : String)
    (size scale : Nat) : Option IconFile × ThemeCache :=
  let r := tc.find_icon_here fs nm size scale
  match r.1 with
  | some f => (some f, r.2)
  | none =>
    (tc.theme.inherits_from.findSome? (fun p => p.find_icon_here fs nm size scale), r.2)

/-! ## `Icons` and `IconsCache` (src/icon.rs, src/cache.rs) -/

/-- `Icons` from src/icon.rs (hash maps as association lists). -/
structure Icons where
  standalone_icons : List (String × IconFile)
  themes : List (String × Theme)

def Icons.theme (ics : Icons) (nm : String) : Option Theme :=
  (ics.themes.find? (fun e => e.1 == nm)).map (fun e => e.2)

def Icons.find_standalone_icon (ics : Icons) (nm : String) : Option IconFile :=
  (ics.standalone_icons.find? (fun e => e.1 == nm)).map (fun e => e.2)

/-- `Icons::find_icon` from src/icon.rs, lines 61-76. -/
def Icons.find_icon (ics : Icons) (fs : PathM → Bool) (nm : String)
    (size scale : Nat) (theme : String) : Option IconFile :=
  if nm = "" then none
  else
    match (ics.theme theme).orElse (fun _ => ics.theme "hicolor") with
    | none => none
    | some t =>
      match t.find_icon fs nm size scale with
      | some f => some f
      | none => ics.find_standalone_icon nm

/-- `IconsCache` from src/cache.rs. -/
structure IconsCache where
  icons : Icons
  themes : List (String × ThemeCache)

def updateThemeCache (l : List (String × ThemeCache)) (k : String) (tc : ThemeCache) :
    List (String × ThemeCache) :=
  l.map (fun e => if e.1 == k then (e.1, tc) else e)

/-- `IconsCache::find_icon` from src/cache.rs, lines 47-66. -/
def IconsCache.find_icon (ic : IconsCache) (fs : PathM → Bool) (nm : String)
    (size scale : Nat) (theme : String) : Option IconFile × IconsCache :=
  if nm = "" then (none, ic)
  else
    match (ic.themes.find? (fun e => e.1 == theme)).orElse
        (fun _ => ic.themes.find? (fun e => e.1 == "hicolor")) with
    | none => (none, ic)
    | some e =>
      let r := e.2.find_icon fs nm size scale
      let ic' : IconsCache := ⟨ic.icons, updateThemeCache ic.themes e.1 r.2⟩
      match r.1 with
      | some f => (some f, ic')
      | none => (ic.icons.find_standalone_icon nm, ic')

/-! ### Concrete data for claim C1

One theme, one base dir, one Fixed 32x32 directory; both `ico.png` and
`ico.svg` exist in it.  The request (size 16, scale 1) has no exact
match. -/

def c1dir : DirectoryIndex := ⟨"fixed32", false, 32, 1, none, .Fixed, 32, 32, 2⟩

def c1info : ThemeInfo :=
  ⟨"T", ["b"], ⟨"T", "", [], [c1dir], false, none⟩⟩

def c1theme : Theme := Theme.mk c1info []

def c1png : PathM := ⟨"b", "fixed32", "ico.png"⟩

def c1svg : PathM := ⟨"b", "fixed32", "ico.svg"⟩

def c1fs : PathM → Bool := fun p => p == c1png || p == c1svg

/-! ## The graph resolver (src/search.rs, `IconLocations::resolve_only`)

`IconLocations` carries the finite map of theme-directory candidates and
an abstract parse result per theme name (`theme_indices`, standing for
`ThemeIndex::parse_from_file` on the first `index.theme` of the theme's
folders; any I/O or parse failure is `none`, exactly as `resolve_only`'s
`collect_themes` folds every error into "no descriptor").
`load_single_theme` can only succeed for names in `themes_directories`,
which gives the descriptor source finite support. -/

structure IconLocations where
  standalone_icons : List IconFile
  themes_directories : List (String × List String)
  theme_indices : String → Option ThemeIndex

/-- `IconLocations::load_single_theme` (src/search.rs, lines 552-564),
composed with `ThemeInfo::new_from_folders`: look the name up among the
theme directories, parse its index, and build the `ThemeInfo` whose
`internal_name` is the looked-up name. -/
def IconLocations.load_single_theme (locs : IconLocations) (name : String) :
    Option ThemeInfo :=
  match locs.themes_directories.find? (fun e => e.1 == name) with
  | none => none
  | some e =>
    match locs.theme_indices name with
    | none => none
    | some idx => some ⟨name, e.2, idx⟩

/-- The memo map of `collect_themes`: name to loaded descriptor (`none`
for names whose load failed), in insertion order. -/
abbrev ThemeMap := List (String × Option ThemeInfo)

def lookupTM (m : ThemeMap) (name : String) : Option (Option ThemeInfo) :=
  (m.find? (fun e => e.1 == name)).map (fun e => e.2)

/-- The names for which `load_single_theme` can possibly succeed. -/
def supportNames (locs : IconLocations) : List String :=
  (locs.themes_directories.map Prod.fst).dedup

/-- `collect_themes` (src/search.rs, lines 379-411): depth-first, memoized
descriptor collection.  The Rust recursion (visit a name: skip it when
already in the memo map, otherwise record its load result and recurse
into its declared parents in order) is rendered as an explicit worklist
whose parents are pushed at the front, which pops names in exactly the
same depth-first preorder and builds the same memo map.  `fuel` bounds
the number of pops; since a loadable name is expanded at most once (the
memo check), the pops never exceed the initial worklist length plus the
total number of parent declarations over all loadable names, the bound
`collectFuel` computes. -/
def collectThemes (locs : IconLocations) : Nat → List String → ThemeMap → ThemeMap
  | 0, _, m => m
  | _ + 1, [], m => m
  | fuel + 1, name :: rest, m =>
    if (lookupTM m name).isSome then collectThemes locs fuel rest m
    else
      match locs.load_single_theme name with
      | none => collectThemes locs fuel rest (m ++ [(name, none)])
      | some info =>
        collectThemes locs fuel (info.index.inherits ++ rest) (m ++ [(name, some info)])

/-- Total number of parent declarations over all loadable names. -/
def totalInherits (locs : IconLocations) : Nat :=
  (supportNames locs).foldl (fun acc k =>
    acc + (match locs.load_single_theme k with
           | some i => i.index.inherits.length
           | none => 0)) 0

/-- Sufficient fuel for `collectThemes` on the worklist `ws`. -/
def collectFuel (locs : IconLocations) (ws : List String) : Nat :=
  ws.length + totalInherits locs + 1

/-- Rust `Iterator::position`: index of the first element equal to `k`. -/
def position (l : List String) (k : String) : Option Nat :=
  match l with
  | [] => none
  | x :: xs => if x = k then some 0 else (position xs k).map (fun i => i + 1)

/-- The `for parent in &info.index.inherits` body of the chain loop
(src/search.rs, lines 465-477): resolve the parent name to its index,
drop any previous occurrence from the chain, and append it at the end. -/
def chainInsertParents (tnames : List String) (inherits : List String)
    (chain : List Nat) : List Nat :=
  inherits.foldl (fun ch parent =>
    match position tnames parent with
    | none => ch
    | some pidx => (ch.filter (fun idx => idx ≠ pidx)) ++ [pidx]) chain

/-- The `while let Some(node_idx) = chain.get(cursor)` loop (src/search.rs,
lines 457-478).  The Rust loop needs no fuel: the chain always holds
distinct indices below the number of themes `n`, so its length never
exceeds `n` while the cursor grows by one per iteration; `buildChain`
passes fuel `n`, which the same bound shows adequate. -/
def buildChainLoop (tnames : List String) (tinfos : List (Option ThemeInfo)) :
    Nat → List Nat → Nat → List Nat
  | 0, chain, _ => chain
  | fuel + 1, chain, cursor =>
    match chain[cursor]? with
    | none => chain
    | some node_idx =>
      let chain' :=
        match tinfos[node_idx]? with
        | some (some info) => chainInsertParents tnames info.index.inherits chain
        | _ => chain
      buildChainLoop tnames tinfos fuel chain' (cursor + 1)

/-- One theme's chain (src/search.rs, lines 454-487): breadth-first walk
from the theme itself, then hicolor (when present) is moved to the very
end. -/
def buildChain (tnames : List String) (tinfos : List (Option ThemeInfo))
    (hic : Option Nat) (i : Nat) : List Nat :=
  let chain := buildChainLoop tnames tinfos tnames.length [i] 0
  match hic with
  | none => chain
  | some h => (chain.filter (fun idx => idx ≠ h)) ++ [h]

/-- `Iterator::map(...).collect()` over a fallible body: the first
failure (panic) aborts.  (A structural-recursion rendering of `mapM` in
the `Option` monad.) -/
def mapMopt {α β : Type} (f : α → Option β) : List α → Option (List β)
  | [] => some []
  | a :: as =>
    match f a with
    | none => none
    | some b =>
      match mapMopt f as with
      | none => none
      | some bs => some (b :: bs)

/-- A fallible left fold: the first failure (panic) aborts. -/
def foldMopt {σ α : Type} (f : σ → α → Option σ) : σ → List α → Option σ
  | s, [] => some s
  | s, a :: as =>
    match f s a with
    | none => none
    | some s' => foldMopt f s' as

/-- Node-materialization state: the take-able `theme_info` vector and the
`full_themes` vector. -/
abbrev MatSt := List (Option ThemeInfo) × List (Option Theme)

/-- One iteration of the materialization loop (src/search.rs, lines
500-527): take the theme's info (skip when already taken), then build the
node whose ancestor list maps each index of its chain's tail to the
already-constructed node.  `none` models a panic: the `unwrap` at line
517 hitting a not-yet-constructed parent, or out-of-bounds indexing. -/
def matStep (chains : List (List Nat)) (st : MatSt) (idx : Nat) : Option MatSt :=
  match st.1[idx]? with
  | none => none
  | some none => some st
  | some (some info) =>
    match chains[idx]? with
    | none => none
    | some ch =>
      match mapMopt (fun p => (st.2[p]?).bind id) (ch.drop 1) with
      | none => none
      | some parents =>
        some (st.1.set idx none, st.2.set idx (some (Theme.mk info parents)))

/-- The two nested materialization loops: each chain, tail-first. -/
def runChains (chains : List (List Nat)) (st : MatSt) : Option MatSt :=
  foldMopt (fun s ch => foldMopt (matStep chains) s ch.reverse) st chains

/-- The pruning step (src/search.rs, lines 433-436): drop names whose
descriptor failed to load. -/
def prunedOf (m : ThemeMap) : List (String × ThemeInfo) :=
  m.filterMap (fun kv => kv.2.map (fun i => (kv.1, i)))

/-- The fully collected memo map: the requested names, then `"hicolor"`
unconditionally. -/
def collectedMap (locs : IconLocations) (names : List String) : ThemeMap :=
  collectThemes locs (collectFuel locs ["hicolor"]) ["hicolor"]
    (collectThemes locs (collectFuel locs names) names [])

/-- `theme_names` after pruning (src/search.rs, line 433). -/
def resolvedNames (locs : IconLocations) (names : List String) : List String :=
  (prunedOf (collectedMap locs names)).map Prod.fst

/-- `theme_info` after pruning: a vector of `Some`s, take-able later. -/
def resolvedInfos (locs : IconLocations) (names : List String) : List (Option ThemeInfo) :=
  (prunedOf (collectedMap locs names)).map (fun kv => some kv.2)

/-- `hicolor_idx` (src/search.rs, line 443). -/
def hicIdx (locs : IconLocations) (names : List String) : Option Nat :=
  position (resolvedNames locs names) "hicolor"

/-- `theme_chains` (src/search.rs, lines 452-488). -/
def resolvedChains (locs : IconLocations) (names : List String) : List (List Nat) :=
  (List.range (resolvedNames locs names).length).map
    (fun i => buildChain (resolvedNames locs names) (resolvedInfos locs names)
      (hicIdx locs names) i)

/-- `IconLocations::resolve_only` (src/search.rs, lines 364-544): collect
descriptors for the requested names plus `"hicolor"`, prune failures,
compute each theme's chain, materialize nodes tail-first, and zip names
with nodes.  The result is `none` exactly when the Rust function
panics. -/
def resolveOnly (locs : IconLocations) (names : List String) :
    Option (List (String × Theme)) :=
  let tnames := resolvedNames locs names
  match runChains (resolvedChains locs names)
      (resolvedInfos locs names, List.replicate tnames.length none) with
  | none => none
  | some st =>
    match mapMopt id st.2 with
    | none => none
    | some fulls => some (tnames.zip fulls)

/-- `HashMap::get` over the result map (association-list form). -/
def lookupAssoc {α : Type} (m : List (String × α)) (k : String) : Option α :=
  (m.find? (fun e => e.1 == k)).map (fun e => e.2)

/-! ### Concrete resolver inputs for C3, C4 and C8 -/

/-- Theme index of `"B"`, inheriting `"C"`. -/
def cycIndexB : ThemeIndex := ⟨"B", "", ["C"], [], false, none⟩

/-- Theme index of `"C"`, inheriting `"B"`. -/
def cycIndexC : ThemeIndex := ⟨"C", "", ["B"], [], false, none⟩

/-- Two loadable themes that inherit each other; no hicolor anywhere. -/
def cycLocs : IconLocations :=
  ⟨[], [("B", ["bb"]), ("C", ["cb"])],
    fun k => if k = "B" then some cycIndexB else if k = "C" then some cycIndexC else none⟩

/-- A hicolor index that declares no parents. -/
def hIndex : ThemeIndex := ⟨"Hicolor", "", [], [], false, none⟩

def hInfo : ThemeInfo := ⟨"hicolor", ["hb"], hIndex⟩

/-- A source whose only loadable theme is hicolor itself. -/
def hOnlyLocs : IconLocations :=
  ⟨[], [("hicolor", ["hb"])], fun k => if k = "hicolor" then some hIndex else none⟩

/-- A child theme with no declared parents. -/
def childIndex : ThemeIndex := ⟨"Child", "", [], [], false, none⟩

def childInfo : ThemeInfo := ⟨"child", ["cb"], childIndex⟩

/-- A source with a child theme and hicolor. -/
def childLocs : IconLocations :=
  ⟨[], [("child", ["cb"]), ("hicolor", ["hb"])],
    fun k => if k = "child" then some childIndex
      else if k = "hicolor" then some hIndex else none⟩

/-! ### Verification-side predicates for the resolver -/

/-- Default node for `List.getD` in the characterization of successful
runs (never actually selected: the indices involved are in bounds). -/
def defaultTheme : Theme := Theme.mk ⟨"", [], ⟨"", "", [], [], false, none⟩⟩ []

/-- Growth relation on the `full_themes` vector: entries only go from
unassigned to assigned and never change once assigned. -/
def MonoFull (f f' : List (Option Theme)) : Prop :=
  f.length = f'.length ∧
  ∀ (i : Nat) (t : Theme), f[i]? = some (some t) → f'[i]? = some (some t)

/-- The materialization-loop invariant, relative to the original pruned
info vector `tinfos0` and the chain table: lengths are stable; each info
slot is either taken or untouched; a slot is taken exactly when its node
is assigned; and every assigned node was built from its own chain's tail
over already-assigned nodes, with the theme absent from its own tail. -/
def MatInv (tinfos0 : List (Option ThemeInfo)) (chains : List (List Nat))
    (st : MatSt) : Prop :=
  st.1.length = tinfos0.length ∧
  st.2.length = tinfos0.length ∧
  (∀ i : Nat, st.1[i]? = some none ∨ st.1[i]? = tinfos0[i]?) ∧
  (∀ i : Nat, st.1[i]? = some none ↔ ∃ t, st.2[i]? = some (some t)) ∧
  (∀ (i : Nat) (t : Theme), st.2[i]? = some (some t) →
    ∃ info ch ps, tinfos0[i]? = some (some info) ∧ chains[i]? = some ch ∧
      i ∉ ch.drop 1 ∧
      mapMopt (fun p => (st.2[p]?).bind id) (ch.drop 1) = some ps ∧
      t = Theme.mk info ps)

/-! ## Claim C2 -/

/-- C2, counterexample: the claim states that when the directory's scale
differs from the requested scale, `size_distance` does not report the
directory as distance 0.  For the Fixed directory of size 32, scale 1, the
request (size 16, scale 2) has a differing scale yet distance
`|32*1 - 16*2| = 0`: `size_distance` contains no scale gate. -/
theorem c2_scale_counterexample :
    fdir32.scale ≠ 2 ∧ fdir32.size_distance 16 2 = 0 := by decide

/-- C2 (amended): if the directory's scale differs from the requested
scale then `matches_size` returns false — scale is a hard gate before any
size comparison in `matches_size`.  (`size_distance` has no such gate: it
compares the products `size*scale` and may return 0 for a directory whose
scale differs from the request, as the counterexample shows.) -/
theorem c2_matches_size_scale_gate (d : DirectoryIndex) (icon_size icon_scale : Nat)
    (h : d.scale ≠ icon_scale) :
    d.matches_size icon_size icon_scale = false := by
  unfold DirectoryIndex.matches_size
  simp [h]

/-- C2, witness for the amended theorem at a concrete input. -/
theorem c2_matches_size_scale_gate_witness :
    fdir32.scale ≠ 2 ∧ fdir32.matches_size 16 2 = false :=
  ⟨by decide, c2_matches_size_scale_gate fdir32 16 2 (by decide)⟩

/-! ## Claim C5 -/

/-- C5, counterexample: for a Threshold directory whose threshold (5)
exceeds its nominal size (2), `size_distance` does not equal the
specification's exact-arithmetic formula.  At request (size 3, scale 1)
the code computes `(2 - 5)` in u32 (wrapping to 4294967293; a panic in
debug builds), takes the request to be below the lower bound, and returns
gap 1 to `min_size*scale`; the exact formula's lower bound is -3, so the
request is inside the band and the exact distance is 0. -/
theorem c5_threshold_counterexample :
    tdirUnder.directory_type = .Threshold ∧
      (tdirUnder.size_distance 3 1 : Int) ≠ specThresholdDistance tdirUnder 3 1 := by
  constructor
  · rfl
  · decide

/-- C5 (amended): for every Threshold directory whose threshold does not
exceed its nominal size, and whose sizes and scale are small enough that
none of the products in the formula leaves u32 range, `size_distance`
equals the specification's formula in exact integer arithmetic: 0 when
the requested `size*scale` lies within
`[(size-threshold)*scale, (size+threshold)*scale]`, the gap to
`min_size*scale` below that band, and the gap to `max_size*scale` above
it. -/
theorem c5_threshold_distance_exact (d : DirectoryIndex) (icon_size icon_scale : Nat)
    (hty : d.directory_type = .Threshold)
    (hth : d.threshold ≤ d.size)
    (hsum : d.size + d.threshold < U32)
    (h1 : (d.size + d.threshold) * d.scale < U32)
    (h2 : icon_size * icon_scale < U32)
    (h3 : d.min_size * d.scale < U32)
    (h4 : d.max_size * d.scale < U32) :
    (d.size_distance icon_size icon_scale : Int) = specThresholdDistance d icon_size icon_scale := by
  have hsz : d.size < U32 := by omega
  have hthr : d.threshold < U32 := by omega
  have hsub : u32sub d.size d.threshold = d.size - d.threshold := by
    unfold u32sub u32wrap
    rw [Nat.mod_eq_of_lt hsz, Nat.mod_eq_of_lt hthr]
    have h' : d.size + (U32 - d.threshold) = (d.size - d.threshold) + U32 := by omega
    rw [h', Nat.add_mod_right, Nat.mod_eq_of_lt (by omega)]
  have hlo : (d.size - d.threshold) * d.scale < U32 :=
    lt_of_le_of_lt (Nat.mul_le_mul_right _ (by omega)) h1
  have hadd : u32add d.size d.threshold = d.size + d.threshold := by
    unfold u32add u32wrap; exact Nat.mod_eq_of_lt hsum
  simp only [DirectoryIndex.size_distance, specThresholdDistance, hty, hsub, hadd,
    u32mul, u32wrap, Nat.mod_eq_of_lt h2, Nat.mod_eq_of_lt hlo, Nat.mod_eq_of_lt h1,
    Nat.mod_eq_of_lt h3, Nat.mod_eq_of_lt h4]
  have r0 : (icon_size : Int) * (icon_scale : Int) = ((icon_size * icon_scale : Nat) : Int) := by
    push_cast; ring
  have r1 : ((d.size : Int) - (d.threshold : Int)) * (d.scale : Int)
      = (((d.size - d.threshold) * d.scale : Nat) : Int) := by
    push_cast [Nat.cast_sub hth]; ring
  have r2 : ((d.size : Int) + (d.threshold : Int)) * (d.scale : Int)
      = (((d.size + d.threshold) * d.scale : Nat) : Int) := by
    push_cast; ring
  have r3 : (d.min_size : Int) * (d.scale : Int) = ((d.min_size * d.scale : Nat) : Int) := by
    push_cast; ring
  have r4 : (d.max_size : Int) * (d.scale : Int) = ((d.max_size * d.scale : Nat) : Int) := by
    push_cast; ring
  rw [r0, r1, r2, r3, r4]
  split_ifs <;> (try unfold abs_diff) <;> omega

/-- C5, witness for the amended theorem at a concrete input: the ordinary
32-pixel Threshold directory at request (size 40, scale 1) — the code and
the exact formula agree (both give gap 6 to `max_size*scale = 32`). -/
theorem c5_threshold_distance_exact_witness :
    tdir32.threshold ≤ tdir32.size ∧
      (tdir32.size_distance 40 1 : Int) = specThresholdDistance tdir32 40 1 :=
  ⟨by decide,
   c5_threshold_distance_exact tdir32 40 1 rfl (by decide) (by decide) (by decide)
     (by decide) (by decide) (by decide)⟩

/-! ## Claim C6 -/

/-- C6: with equal scale, `matches_size` decides the request exactly by
kind: Fixed — requested size equals the nominal size; Scalable — the
requested size lies within `[min_size, max_size]` inclusive; Threshold —
the absolute difference between requested and nominal size is at most
`threshold`. -/
theorem c6_matches_size_by_kind (d : DirectoryIndex) (icon_size icon_scale : Nat)
    (hsc : icon_scale = d.scale) :
    d.matches_size icon_size icon_scale = true ↔
      (match d.directory_type with
       | .Fixed => icon_size = d.size
       | .Scalable => d.min_size ≤ icon_size ∧ icon_size ≤ d.max_size
       | .Threshold => ((d.size : Int) - (icon_size : Int)).natAbs ≤ d.threshold) := by
  subst hsc
  unfold DirectoryIndex.matches_size
  cases h : d.directory_type <;> simp [h, abs_diff] <;> omega

/-- C6, witness: the Threshold directory with size 32 and threshold 2
matches size 30 at scale 1 (and, directly from the theorem's
characterization, sizes 30..34 are exactly the sizes it accepts). -/
theorem c6_matches_size_by_kind_witness :
    (1 = tdir32.scale) ∧ tdir32.matches_size 30 1 = true :=
  ⟨rfl, (c6_matches_size_by_kind tdir32 30 1 rfl).mpr
    (show ((tdir32.size : Int) - (30 : Int)).natAbs ≤ tdir32.threshold by decide)⟩

/-! ## Claim C9 -/

/-- A nonempty character list never builds the empty string. -/
lemma string_mk_ne_empty (l : List Char) (h : l ≠ []) : String.mk l ≠ "" := by
  intro he
  apply h
  have h2 := congrArg String.data he
  simpa using h2

/-- A file stem produced by `fileStem` is never the empty string. -/
lemma fileStem_ne_empty (name : String) (s : String) (h : fileStem name = some s) :
    s ≠ "" := by
  unfold fileStem at h
  split at h
  · exact absurd h (by simp)
  · rename_i hne
    have hcs : name.toList ≠ [] := by
      intro hnil
      apply hne
      have h2 := congrArg String.mk hnil
      simpa [String.toList] using h2
    injection h with h
    subst h
    unfold splitFileAtDot
    split
    · exact string_mk_ne_empty _ hcs
    · split
      · exact string_mk_ne_empty _ hcs
      · exact string_mk_ne_empty _ hcs
      · rename_i j _
        refine string_mk_ne_empty _ ?_
        simp only [ne_eq, List.take_eq_nil_iff]
        push_neg
        exact ⟨by omega, hcs⟩

/-- C9: `IconFile::from_path` / `from_path_buf` yields a value exactly when
the path has a non-empty file stem and an extension recognized (ASCII
case-insensitively) as an icon format: png, xpm or svg.  For every other
path, construction fails and yields no value. -/
theorem c9_from_path_characterization (p : PathM) :
    (IconFile.from_path p).isSome = true ↔
      ((∃ s, fileStem p.file = some s ∧ s ≠ "") ∧
       ∃ e, fileExtension p.file = some e ∧
         (eqIgnoreAsciiCase e "png" = true ∨ eqIgnoreAsciiCase e "xpm" = true ∨
           eqIgnoreAsciiCase e "svg" = true)) := by
  unfold IconFile.from_path FileType.from_path_ext
  cases hstem : fileStem p.file with
  | none => simp
  | some s =>
    have hs := fileStem_ne_empty _ _ hstem
    cases hext : fileExtension p.file with
    | none => simp
    | some e =>
      simp only [Option.some.injEq]
      split_ifs with h1 h2 h3 <;> simp_all

/-! ## Claim C10 -/

/-- C10: with the empty string as icon name, both `Icons::find_icon` and
`IconsCache::find_icon` return absence immediately — for every theme
argument, size, scale, filesystem, and state; the cache is returned
untouched (nothing is consulted or populated). -/
theorem c10_empty_name_absent (fs : PathM → Bool) (ics : Icons) (ic : IconsCache)
    (size scale : Nat) (theme : String) :
    ics.find_icon fs "" size scale theme = none ∧
      ic.find_icon fs "" size scale theme = (none, ic) :=
  ⟨rfl, rfl⟩

/-! ## Claim C1 -/

/-- C1: cached and uncached lookup can disagree.  With one Fixed 32x32
directory holding both `ico.png` and `ico.svg`, at request (size 16,
scale 1) there is no exact match; `Theme::find_icon`'s closest-match pass
overwrites its best candidate with every existing extension in order and
returns the svg, while `ThemeCache::find_icon` serves `min_by_key` over
the cached candidate list and returns the first minimal candidate, the
png. -/
theorem c1_cached_uncached_divergence :
    Theme.find_icon c1theme c1fs "ico" 16 1 = some ⟨c1svg, .Svg⟩ ∧
      (ThemeCache.find_icon ⟨c1theme, []⟩ c1fs "ico" 16 1).1 = some ⟨c1png, .Png⟩ ∧
      Theme.find_icon c1theme c1fs "ico" 16 1 ≠
        (ThemeCache.find_icon ⟨c1theme, []⟩ c1fs "ico" 16 1).1 :=
  ⟨by decide, by decide, by decide⟩

/-! ## Claim C7 -/

/-- The last element of a cons. -/
lemma getLast?_cons_eq (x : α) (l : List α) :
    (x :: l).getLast? = some (l.getLast?.getD x) := by
  induction l generalizing x with
  | nil => rfl
  | cons y ys ih =>
    rw [List.getLast?_cons_cons, ih y]
    cases hys : ys.getLast? <;> simp [ih, hys]

/-- The inner extension loop of the closest-match pass: it leaves the
state alone when no file exists, and otherwise records the LAST existing
valid file at the directory's distance. -/
lemma closest_inner_char (g : String → Option IconFile) (dist : Nat) :
    ∀ (fns : List String) (st : Nat × Option IconFile),
      fns.foldl (fun st2 fn =>
        match g fn with
        | some f => (dist, some f)
        | none => st2) st =
      match (fns.filterMap g).getLast? with
      | none => st
      | some f => (dist, some f) := by
  intro fns
  induction fns with
  | nil => intro st; rfl
  | cons fn rest ih =>
    intro st
    cases h : g fn with
    | none => simp only [List.foldl_cons, List.filterMap_cons, h]; exact ih st
    | some f =>
      simp only [List.foldl_cons, List.filterMap_cons, h]
      rw [ih, getLast?_cons_eq]
      cases hr : (rest.filterMap g).getLast? <;> simp [hr]

lemma dirFiles_empty_iff (fs : PathM → Bool) (nm : String) (bd : String × DirectoryIndex) :
    (dirFiles fs nm bd).isEmpty = true ↔ dirFiles fs nm bd = [] := by
  cases dirFiles fs nm bd <;> simp

/-- The closest-match fold, characterized by the adoption scan. -/
lemma findClosest_fold_char (fs : PathM → Bool) (nm : String) (size scale : Nat) :
    ∀ (l : List (String × DirectoryIndex)) (m : Nat) (b : Option IconFile),
      (l.foldl (closestStep fs nm size scale) (m, b)).2 =
        match adoptScan fs nm size scale m l with
        | none => b
        | some bd => (dirFiles fs nm bd).getLast? := by
  intro l
  induction l with
  | nil => intro m b; rfl
  | cons bd rest ih =>
    intro m b
    rw [List.foldl_cons]
    unfold adoptScan
    have hinner := closest_inner_char
      (fun fn => checkFile fs (iconPath bd.1 bd.2.directory_name fn))
      (bd.2.size_distance size scale) (fileNamesFor nm) (m, b)
    by_cases hd : bd.2.size_distance size scale < m
    · by_cases hfe : (dirFiles fs nm bd).isEmpty = true
      · have hnil : dirFiles fs nm bd = [] := (dirFiles_empty_iff fs nm bd).mp hfe
        have hstep : closestStep fs nm size scale (m, b) bd = (m, b) := by
          simp only [closestStep]
          rw [if_pos hd, hinner]
          unfold dirFiles at hnil
          rw [hnil]
          rfl
        rw [hstep, if_neg (by simp [hfe])]
        exact ih m b
      · have hfalse : (dirFiles fs nm bd).isEmpty = false := by
          cases h : (dirFiles fs nm bd).isEmpty
          · rfl
          · exact absurd h hfe
        obtain ⟨f, hf⟩ : ∃ f, (dirFiles fs nm bd).getLast? = some f := by
          cases h : (dirFiles fs nm bd).getLast? with
          | none =>
            rw [List.getLast?_eq_none_iff] at h
            rw [(dirFiles_empty_iff fs nm bd).mpr h] at hfalse
            exact absurd hfalse (by simp)
          | some f => exact ⟨f, rfl⟩
        have hstep : closestStep fs nm size scale (m, b) bd =
            (bd.2.size_distance size scale, some f) := by
          simp only [closestStep]
          rw [if_pos hd, hinner]
          unfold dirFiles at hf
          rw [hf]
        rw [hstep, if_pos ⟨hfalse, hd⟩, ih]
        cases hs : adoptScan fs nm size scale (bd.2.size_distance size scale) rest <;>
          simp [hs, hf]
    · have hstep : closestStep fs nm size scale (m, b) bd = (m, b) := by
        simp only [closestStep]
        rw [if_neg hd]
      rw [hstep, if_neg (fun hc => hd hc.2)]
      exact ih m b

/-- When the adoption scan rejects everything, every candidate's distance
is at least the running minimum. -/
lemma adoptScan_none (fs : PathM → Bool) (nm : String) (size scale : Nat) :
    ∀ (l : List (String × DirectoryIndex)) (m : Nat),
      adoptScan fs nm size scale m l = none →
      ∀ bd ∈ l, dirFiles fs nm bd ≠ [] → m ≤ bd.2.size_distance size scale := by
  intro l
  induction l with
  | nil => intro m _ bd hbd; exact absurd hbd (by simp)
  | cons q rest ih =>
    intro m hnone bd hbd hfiles
    unfold adoptScan at hnone
    split at hnone
    · rename_i hcond
      split at hnone
      · exact absurd hnone (by simp)
      · exact absurd hnone (by simp)
    · rename_i hcond
      rcases List.mem_cons.mp hbd with rfl | hmem
      · by_contra hlt
        exact hcond ⟨by simp [dirFiles_empty_iff, hfiles], by omega⟩
      · exact ih m hnone bd hmem hfiles

/-- What the adoption scan returns: a candidate below the running
minimum, minimal among all candidates below the minimum, and the first
candidate attaining its distance. -/
lemma adoptScan_some (fs : PathM → Bool) (nm : String) (size scale : Nat) :
    ∀ (l : List (String × DirectoryIndex)) (m : Nat) (bd : String × DirectoryIndex),
      adoptScan fs nm size scale m l = some bd →
      ∃ l1 l2, l = l1 ++ bd :: l2 ∧
        dirFiles fs nm bd ≠ [] ∧
        bd.2.size_distance size scale < m ∧
        (∀ q ∈ l1, dirFiles fs nm q ≠ [] →
          bd.2.size_distance size scale < q.2.size_distance size scale) ∧
        (∀ q ∈ l, dirFiles fs nm q ≠ [] → q.2.size_distance size scale < m →
          bd.2.size_distance size scale ≤ q.2.size_distance size scale) := by
  intro l
  induction l with
  | nil => intro m bd h; exact absurd h (by simp [adoptScan])
  | cons q0 rest ih =>
    intro m bd h
    unfold adoptScan at h
    split at h
    · rename_i hcond
      have hq0files : dirFiles fs nm q0 ≠ [] := by
        have := hcond.1
        intro hnil
        rw [(dirFiles_empty_iff fs nm q0).mpr hnil] at this
        exact absurd this (by simp)
      split at h
      · rename_i hrec
        injection h with h
        subst h
        refine ⟨[], rest, rfl, hq0files, hcond.2, by simp, ?_⟩
        intro q hq hqf _
        rcases List.mem_cons.mp hq with rfl | hmem
        · exact le_refl _
        · exact adoptScan_none fs nm size scale rest _ hrec q hmem hqf
      · rename_i q1 hrec
        injection h with h
        subst h
        obtain ⟨l1, l2, hsplit, hf, hlt, hfirst, hmin⟩ := ih _ _ hrec
        refine ⟨q0 :: l1, l2, by simp [hsplit], hf, lt_trans hlt hcond.2, ?_, ?_⟩
        · intro q hq hqf
          rcases List.mem_cons.mp hq with rfl | hmem
          · exact hlt
          · exact hfirst q hmem hqf
        · intro q hq hqf hqm
          rcases List.mem_cons.mp hq with rfl | hmem
          · exact le_of_lt hlt
          · by_cases hq0 : q.2.size_distance size scale < q0.2.size_distance size scale
            · exact hmin q hmem hqf hq0
            · omega
    · rename_i hcond
      obtain ⟨l1, l2, hsplit, hf, hlt, hfirst, hmin⟩ := ih _ _ h
      refine ⟨q0 :: l1, l2, by simp [hsplit], hf, hlt, ?_, ?_⟩
      · intro q hq hqf
        rcases List.mem_cons.mp hq with rfl | hmem
        · have : ¬ q.2.size_distance size scale < m := by
            intro hm
            exact hcond ⟨by simp [dirFiles_empty_iff, hqf], hm⟩
          omega
        · exact hfirst q hmem hqf
      · intro q hq hqf hqm
        rcases List.mem_cons.mp hq with rfl | hmem
        · exact absurd hqm (by
            intro hm
            exact hcond ⟨by simp [dirFiles_empty_iff, hqf], hm⟩)
        · exact hmin q hmem hqf hqm

/-- The adoption scan succeeds whenever some candidate is below the
running minimum. -/
lemma adoptScan_exists (fs : PathM → Bool) (nm : String) (size scale : Nat) :
    ∀ (l : List (String × DirectoryIndex)) (m : Nat),
      (∃ bd ∈ l, dirFiles fs nm bd ≠ [] ∧ bd.2.size_distance size scale < m) →
      (adoptScan fs nm size scale m l).isSome = true := by
  intro l
  induction l with
  | nil => intro m h; exact absurd h (by simp)
  | cons q0 rest ih =>
    intro m h
    unfold adoptScan
    split
    · split <;> simp
    · rename_i hcond
      obtain ⟨bd, hbd, hf, hd⟩ := h
      rcases List.mem_cons.mp hbd with rfl | hmem
      · exact absurd ⟨by simp [dirFiles_empty_iff, hf], hd⟩ hcond
      · exact ih m ⟨bd, hmem, hf, hd⟩

/-- C7: when no directory yields an exact match, `Theme::find_icon_here`
scans all (base dir, directory) pairs in declaration order with the
minimum distance initialized to "infinite" (`u32::MAX`), adopting a
candidate only when the directory's distance is strictly below the
minimum seen so far and a file for the name exists there; the first
directory attaining a given minimum wins ties; absence is returned when
no directory contains any file for the name (and conversely a result is
produced whenever some file-containing directory sits below the initial
"infinite" distance). -/
theorem c7_closest_match_characterization (fs : PathM → Bool) (info : ThemeInfo)
    (nm : String) (size scale : Nat)
    (H : info.findExact fs nm size scale = none) :
    ((∀ bd ∈ scanPairs info, dirFiles fs nm bd = []) →
        info.find_icon_here fs nm size scale = none) ∧
      (∀ f, info.find_icon_here fs nm size scale = some f →
        ∃ l1 bd l2, scanPairs info = l1 ++ bd :: l2 ∧
          (dirFiles fs nm bd).getLast? = some f ∧
          bd.2.size_distance size scale < U32MAX ∧
          (∀ q ∈ l1, dirFiles fs nm q ≠ [] →
            bd.2.size_distance size scale < q.2.size_distance size scale) ∧
          (∀ q ∈ scanPairs info, dirFiles fs nm q ≠ [] →
            q.2.size_distance size scale < U32MAX →
            bd.2.size_distance size scale ≤ q.2.size_distance size scale)) ∧
      ((∃ bd ∈ scanPairs info, dirFiles fs nm bd ≠ [] ∧
          bd.2.size_distance size scale < U32MAX) →
        ∃ f, info.find_icon_here fs nm size scale = some f) := by
  have hmain : info.find_icon_here fs nm size scale =
      match adoptScan fs nm size scale U32MAX (scanPairs info) with
      | none => none
      | some bd => (dirFiles fs nm bd).getLast? := by
    unfold ThemeInfo.find_icon_here
    rw [H]
    unfold ThemeInfo.findClosest
    exact findClosest_fold_char fs nm size scale (scanPairs info) U32MAX none
  refine ⟨?_, ?_, ?_⟩
  · intro hall
    rw [hmain]
    cases hs : adoptScan fs nm size scale U32MAX (scanPairs info) with
    | none => rfl
    | some bd =>
      obtain ⟨l1, l2, hsplit, hf, _, _, _⟩ := adoptScan_some fs nm size scale _ _ _ hs
      exact absurd (hall bd (by rw [hsplit]; exact List.mem_append_right _ (by simp))) hf
  · intro f hf
    rw [hmain] at hf
    cases hs : adoptScan fs nm size scale U32MAX (scanPairs info) with
    | none => rw [hs] at hf; exact absurd hf (by simp)
    | some bd =>
      rw [hs] at hf
      obtain ⟨l1, l2, hsplit, _, hlt, hfirst, hmin⟩ := adoptScan_some fs nm size scale _ _ _ hs
      exact ⟨l1, bd, l2, hsplit, hf, hlt, hfirst, hmin⟩
  · intro hex
    rw [hmain]
    have := adoptScan_exists fs nm size scale (scanPairs info) U32MAX hex
    cases hs : adoptScan fs nm size scale U32MAX (scanPairs info) with
    | none => rw [hs] at this; exact absurd this (by simp)
    | some bd =>
      obtain ⟨_, _, _, hf, _, _, _⟩ := adoptScan_some fs nm size scale _ _ _ hs
      cases hlast : (dirFiles fs nm bd).getLast? with
      | none => exact absurd (List.getLast?_eq_none_iff.mp hlast) hf
      | some f => exact ⟨f, hlast⟩

/-- C7, witness: the concrete one-directory theme (no exact match for
size 16) produces a closest-match result. -/
theorem c7_closest_match_characterization_witness :
    c1info.findExact c1fs "ico" 16 1 = none ∧
      ∃ f, c1info.find_icon_here c1fs "ico" 16 1 = some f :=
  ⟨by decide,
   (c7_closest_match_characterization c1fs c1info "ico" 16 1 (by decide)).2.2
     ⟨("b", c1dir), by decide, by decide, by decide⟩⟩

/-! ## Claim C3 -/

/-- C3: the claim states that resolution terminates normally for every
source — including reference cycles — and that the unwrap in node
materialization is never reached.  The unwrap is reachable: with two
loadable themes `"B"` and `"C"` inheriting each other (and no loadable
hicolor), the chain computed for `"B"` is `[C, B]` — the move-to-end
de-duplication displaces a theme on a cycle from the head of its own
chain — so materializing `"B"` treats `[B]` as its parent list and
evaluates `full_themes[B].as_ref().unwrap()` while `full_themes[B]` is
still `None`: a panic, which this model renders as `none`. -/
theorem c3_cycle_reaches_unwrap : resolveOnly cycLocs ["B"] = none := by rfl

/-! ## Claim C4 -/

/-- C4, counterexample: with hicolor loadable and nothing else requested,
the resolved map holds the hicolor node itself, whose ordered ancestor
list is empty, so it does not end with the hicolor node — against the
claim's "including the hicolor node itself". -/
theorem c4_hicolor_self_counterexample :
    IconLocations.load_single_theme hOnlyLocs "hicolor" = some hInfo ∧
      resolveOnly hOnlyLocs [] = some [("hicolor", Theme.mk hInfo [])] ∧
      (Theme.mk hInfo []).inherits_from.getLast? = none :=
  ⟨rfl, rfl, rfl⟩


/-! ## Resolver invariants

The lemmas below culminate in `resolve_success_main`, a structural
characterization of every successful `resolveOnly` run, from which the
fallback-ordering claim (C4, amended) and the acyclicity/no-duplicates
claim (C8) follow. -/

lemma position_get (l : List String) (k : String) :
    ∀ i, position l k = some i → l[i]? = some k := by
  induction l with
  | nil => intro i h; simp [position] at h
  | cons x xs ih =>
    intro i h
    unfold position at h
    split at h
    · rename_i hx
      injection h with h
      subst h
      simpa using hx
    · cases hp : position xs k with
      | none => rw [hp] at h; simp at h
      | some j =>
        rw [hp] at h
        simp at h
        subst h
        simpa using ih j hp

lemma position_first (l : List String) (k : String) :
    ∀ i, position l k = some i → ∀ j, j < i → l[j]? ≠ some k := by
  induction l with
  | nil => intro i h; simp [position] at h
  | cons x xs ih =>
    intro i h j hj
    unfold position at h
    split at h
    · injection h with h
      omega
    · rename_i hx
      cases hp : position xs k with
      | none => rw [hp] at h; simp at h
      | some j' =>
        rw [hp] at h
        simp at h
        subst h
        cases j with
        | zero =>
          intro he
          simp at he
          exact hx he
        | succ j0 =>
          simpa using ih j' hp j0 (by omega)

lemma position_bound (l : List String) (k : String) :
    ∀ i, position l k = some i → i < l.length := by
  intro i h
  by_contra hge
  have h2 := position_get l k i h
  rw [List.getElem?_eq_none_iff.mpr (by omega)] at h2
  exact absurd h2 (by simp)

lemma position_isSome_of_mem (l : List String) (k : String) (h : k ∈ l) :
    (position l k).isSome = true := by
  induction l with
  | nil => simp at h
  | cons x xs ih =>
    unfold position
    split
    · simp
    · rename_i hx
      rcases List.mem_cons.mp h with rfl | hmem
      · exact absurd rfl hx
      · cases hp : position xs k with
        | none => rw [hp] at ih; simpa using ih hmem
        | some j => simp

lemma find?_of_first (l : List α) (p : α → Bool) :
    ∀ (i : Nat) (a : α), l[i]? = some a → p a = true →
      (∀ (j : Nat) (b : α), j < i → l[j]? = some b → p b = false) →
      l.find? p = some a := by
  induction l with
  | nil => intro i a h _ _; simp at h
  | cons x xs ih =>
    intro i a h hp hfirst
    cases i with
    | zero =>
      simp at h
      subst h
      simp [List.find?_cons, hp]
    | succ i0 =>
      have hx : p x = false := hfirst 0 x (by omega) (by simp)
      simp at h
      rw [List.find?_cons, hx]
      exact ih i0 a h hp (fun j b hj hb => hfirst (j + 1) b (by omega) (by simpa using hb))

lemma zip_getElem? (l1 : List α) (l2 : List β) :
    ∀ (i : Nat) (x : α) (y : β), l1[i]? = some x → l2[i]? = some y →
      (l1.zip l2)[i]? = some (x, y) := by
  induction l1 generalizing l2 with
  | nil => intro i x y h; simp at h
  | cons a as ih =>
    intro i x y h1 h2
    cases l2 with
    | nil => simp at h2
    | cons b bs =>
      cases i with
      | zero => simp at h1 h2; subst h1; subst h2; simp [List.zip_cons_cons]
      | succ i0 =>
        simp at h1 h2
        simpa [List.zip_cons_cons] using ih bs i0 x y h1 h2

lemma mem_zip_getElem (l1 : List α) (l2 : List β) :
    ∀ (x : α) (y : β), (x, y) ∈ l1.zip l2 →
      ∃ i : Nat, l1[i]? = some x ∧ l2[i]? = some y := by
  induction l1 generalizing l2 with
  | nil => intro x y h; simp at h
  | cons a as ih =>
    intro x y h
    cases l2 with
    | nil => simp at h
    | cons b bs =>
      rw [List.zip_cons_cons] at h
      rcases List.mem_cons.mp h with heq | hmem
      · injection heq with h1 h2
        subst h1; subst h2
        exact ⟨0, by simp⟩
      · obtain ⟨i, hi1, hi2⟩ := ih bs x y hmem
        exact ⟨i + 1, by simpa using hi1, by simpa using hi2⟩

lemma getLast?_drop_one (l : List α) (h : 2 ≤ l.length) :
    (l.drop 1).getLast? = l.getLast? := by
  cases l with
  | nil => simp at h
  | cons x xs =>
    cases xs with
    | nil => simp at h
    | cons y ys => simp [List.getLast?_cons_cons]

lemma nodup_getElem?_inj (l : List α) (hl : l.Nodup) :
    ∀ (i j : Nat) (a : α), l[i]? = some a → l[j]? = some a → i = j := by
  induction l with
  | nil => intro i j a h; simp at h
  | cons x xs ih =>
    intro i j a hi hj
    obtain ⟨hx, hxs⟩ := List.nodup_cons.mp hl
    cases i with
    | zero =>
      cases j with
      | zero => rfl
      | succ j0 =>
        simp at hi hj
        subst hi
        exact absurd (List.getElem?_mem hj) hx
    | succ i0 =>
      cases j with
      | zero =>
        simp at hi hj
        subst hj
        exact absurd (List.getElem?_mem hi) hx
      | succ j0 =>
        simp at hi hj
        simpa using ih hxs i0 j0 a hi hj

lemma mapMopt_eq_none {α β : Type} (f : α → Option β) :
    ∀ (l : List α) (a : α), a ∈ l → f a = none → mapMopt f l = none := by
  intro l
  induction l with
  | nil => intro a h; simp at h
  | cons x xs ih =>
    intro a h hf
    rcases List.mem_cons.mp h with rfl | hmem
    · simp [mapMopt, hf]
    · unfold mapMopt
      cases hx : f x with
      | none => rfl
      | some y => rw [ih a hmem hf]

lemma mapMopt_mono {α β : Type} (g g' : α → Option β)
    (hmono : ∀ a b, g a = some b → g' a = some b) :
    ∀ (l : List α) (ps : List β), mapMopt g l = some ps → mapMopt g' l = some ps := by
  intro l
  induction l with
  | nil => intro ps h; simpa [mapMopt] using h
  | cons x xs ih =>
    intro ps h
    unfold mapMopt at h ⊢
    cases hx : g x with
    | none => rw [hx] at h; simp at h
    | some b =>
      rw [hx] at h
      cases hxs : mapMopt g xs with
      | none => rw [hxs] at h; simp at h
      | some bs =>
        rw [hxs] at h
        rw [hmono x b hx, ih bs hxs]
        exact h

lemma mapMopt_mem {α β : Type} (f : α → Option β) :
    ∀ (l : List α) (ps : List β), mapMopt f l = some ps →
      ∀ b ∈ ps, ∃ a ∈ l, f a = some b := by
  intro l
  induction l with
  | nil =>
    intro ps h b hb
    simp [mapMopt] at h
    subst h
    simp at hb
  | cons x xs ih =>
    intro ps h b hb
    unfold mapMopt at h
    cases hx : f x with
    | none => rw [hx] at h; simp at h
    | some y =>
      rw [hx] at h
      cases hxs : mapMopt f xs with
      | none => rw [hxs] at h; simp at h
      | some ys =>
        rw [hxs] at h
        injection h with h
        subst h
        rcases List.mem_cons.mp hb with rfl | hmem
        · exact ⟨x, by simp, hx⟩
        · obtain ⟨a, ha, hfa⟩ := ih ys hxs b hmem
          exact ⟨a, by simp [ha], hfa⟩

lemma mapMopt_id_eq :
    ∀ (l : List (Option α)) (ys : List α), mapMopt id l = some ys → l = ys.map some := by
  intro l
  induction l with
  | nil =>
    intro ys h
    simp [mapMopt] at h
    subst h
    rfl
  | cons x xs ih =>
    intro ys h
    unfold mapMopt at h
    cases x with
    | none => simp [id] at h
    | some a =>
      cases hxs : mapMopt id xs with
      | none => rw [hxs] at h; simp [id] at h
      | some bs =>
        rw [hxs] at h
        simp [id] at h
        subst h
        simp [ih bs hxs]

lemma mapMopt_map_eq {α β : Type} (f : α → Option β) :
    ∀ (l : List α) (ps : List β) (g : α → β),
      mapMopt f l = some ps → (∀ a b, f a = some b → g a = b) → ps = l.map g := by
  intro l
  induction l with
  | nil => intro ps g h _; simp [mapMopt] at h; simp [h.symm]
  | cons x xs ih =>
    intro ps g h hg
    unfold mapMopt at h
    cases hx : f x with
    | none => rw [hx] at h; simp at h
    | some b =>
      rw [hx] at h
      cases hxs : mapMopt f xs with
      | none => rw [hxs] at h; simp at h
      | some bs =>
        rw [hxs] at h
        injection h with h
        subst h
        simp [hg x b hx, ih bs g hxs hg]

lemma lookupTM_none_not_mem (m : ThemeMap) (name : String)
    (h : (lookupTM m name).isSome = false) : name ∉ m.map Prod.fst := by
  intro hmem
  obtain ⟨e, he, hek⟩ := List.mem_map.mp hmem
  unfold lookupTM at h
  cases hf : m.find? (fun e => e.1 == name) with
  | none =>
    have := List.find?_eq_none.mp hf e he
    simp [hek] at this
  | some e0 => rw [hf] at h; simp at h

lemma collect_extends (locs : IconLocations) :
    ∀ (fuel : Nat) (ws : List String) (m : ThemeMap),
      ∃ t, collectThemes locs fuel ws m = m ++ t := by
  intro fuel
  induction fuel with
  | zero => intro ws m; exact ⟨[], by simp [collectThemes]⟩
  | succ f ih =>
    intro ws m
    cases ws with
    | nil => exact ⟨[], by simp [collectThemes]⟩
    | cons name rest =>
      unfold collectThemes
      split
      · exact ih rest m
      · split
        · obtain ⟨t, ht⟩ := ih rest (m ++ [(name, none)])
          exact ⟨[(name, none)] ++ t, by rw [ht, List.append_assoc]⟩
        · rename_i info _
          obtain ⟨t, ht⟩ := ih (info.index.inherits ++ rest) (m ++ [(name, some info)])
          exact ⟨[(name, some info)] ++ t, by rw [ht, List.append_assoc]⟩

lemma collect_keys_nodup (locs : IconLocations) :
    ∀ (fuel : Nat) (ws : List String) (m : ThemeMap),
      (m.map Prod.fst).Nodup → ((collectThemes locs fuel ws m).map Prod.fst).Nodup := by
  intro fuel
  induction fuel with
  | zero => intro ws m h; exact h
  | succ f ih =>
    intro ws m h
    cases ws with
    | nil => exact h
    | cons name rest =>
      unfold collectThemes
      split
      · exact ih rest m h
      · rename_i habs
        have hnot : name ∉ m.map Prod.fst :=
          lookupTM_none_not_mem m name (by simpa using habs)
        have hnodup : ∀ v : Option ThemeInfo,
            ((m ++ [(name, v)]).map Prod.fst).Nodup := by
          intro v
          rw [List.map_append]
          exact List.nodup_append.mpr
            ⟨h, by simp, by intro a ha hb; simp at hb; subst hb; exact hnot ha⟩
        split
        · exact ih rest _ (hnodup none)
        · rename_i info _
          exact ih _ _ (hnodup (some info))

lemma collect_vals (locs : IconLocations) :
    ∀ (fuel : Nat) (ws : List String) (m : ThemeMap),
      (∀ e ∈ m, e.2 = locs.load_single_theme e.1) →
      ∀ e ∈ collectThemes locs fuel ws m, e.2 = locs.load_single_theme e.1 := by
  intro fuel
  induction fuel with
  | zero => intro ws m h; exact h
  | succ f ih =>
    intro ws m h
    cases ws with
    | nil => exact h
    | cons name rest =>
      unfold collectThemes
      split
      · exact ih rest m h
      · split
        · rename_i hload
          refine ih rest _ ?_
          intro e he
          rcases List.mem_append.mp he with hm | hs
          · exact h e hm
          · simp at hs
            subst hs
            simpa using hload.symm
        · rename_i info hload
          refine ih _ _ ?_
          intro e he
          rcases List.mem_append.mp he with hm | hs
          · exact h e hm
          · simp at hs
            subst hs
            simpa using hload.symm

lemma collect_mem (locs : IconLocations) (fuel : Nat) (name : String) (rest : List String)
    (m : ThemeMap) (hfuel : 0 < fuel)
    (hvals : ∀ e ∈ m, e.2 = locs.load_single_theme e.1) :
    ∃ v, (name, v) ∈ collectThemes locs fuel (name :: rest) m ∧
      v = locs.load_single_theme name := by
  cases fuel with
  | zero => omega
  | succ f =>
    unfold collectThemes
    split
    · rename_i hpres
      unfold lookupTM at hpres
      cases hf : m.find? (fun e => e.1 == name) with
      | none => rw [hf] at hpres; simp at hpres
      | some e0 =>
        have hmem := List.mem_of_find?_eq_some hf
        have hkey : e0.1 = name := by
          have := List.find?_some hf
          simpa using this
        obtain ⟨t, ht⟩ := collect_extends locs f rest m
        refine ⟨e0.2, ?_, ?_⟩
        · rw [ht]
          apply List.mem_append_left
          rw [← hkey]
          exact hmem
        · rw [hvals e0 hmem, hkey]
    · split
      · rename_i hload
        obtain ⟨t, ht⟩ := collect_extends locs f rest (m ++ [(name, none)])
        refine ⟨none, ?_, hload.symm⟩
        rw [ht]
        apply List.mem_append_left
        simp
      · rename_i info hload
        obtain ⟨t, ht⟩ :=
          collect_extends locs f (info.index.inherits ++ rest) (m ++ [(name, some info)])
        refine ⟨some info, ?_, hload.symm⟩
        rw [ht]
        apply List.mem_append_left
        simp

lemma prunedOf_keys_sublist (m : ThemeMap) :
    List.Sublist ((prunedOf m).map Prod.fst) (m.map Prod.fst) := by
  induction m with
  | nil => simp [prunedOf]
  | cons kv rest ih =>
    obtain ⟨k, v⟩ := kv
    unfold prunedOf
    rw [List.filterMap_cons]
    cases v with
    | none => simpa [prunedOf] using ih.cons k
    | some i => simpa [prunedOf] using ih.cons₂ k

lemma prunedOf_mem (m : ThemeMap) (k : String) (i : ThemeInfo)
    (h : (k, some i) ∈ m) : (k, i) ∈ prunedOf m := by
  unfold prunedOf
  exact List.mem_filterMap.mpr ⟨(k, some i), h, rfl⟩

lemma prunedOf_mem_rev (m : ThemeMap) (k : String) (i : ThemeInfo)
    (h : (k, i) ∈ prunedOf m) : (k, some i) ∈ m := by
  unfold prunedOf at h
  obtain ⟨kv, hkv, heq⟩ := List.mem_filterMap.mp h
  cases h2 : kv.2 with
  | none => rw [h2] at heq; simp at heq
  | some j =>
    rw [h2] at heq
    simp at heq
    obtain ⟨h1, h3⟩ := heq
    cases kv
    simp_all

lemma load_internal (locs : IconLocations) (k : String) (info : ThemeInfo)
    (h : locs.load_single_theme k = some info) : info.internal_name = k := by
  unfold IconLocations.load_single_theme at h
  split at h
  · simp at h
  · split at h
    · simp at h
    · injection h with h
      subst h
      rfl

lemma collectedMap_vals (locs : IconLocations) (names : List String) :
    ∀ e ∈ collectedMap locs names, e.2 = locs.load_single_theme e.1 := by
  unfold collectedMap
  exact collect_vals locs _ _ _ (collect_vals locs _ _ _ (by simp))

lemma resolvedNames_nodup (locs : IconLocations) (names : List String) :
    (resolvedNames locs names).Nodup := by
  unfold resolvedNames collectedMap
  have h1 := collect_keys_nodup locs (collectFuel locs names) names [] (by simp)
  have h2 := collect_keys_nodup locs (collectFuel locs ["hicolor"]) ["hicolor"] _ h1
  exact List.Nodup.sublist (prunedOf_keys_sublist _) h2

lemma resolved_lengths (locs : IconLocations) (names : List String) :
    (resolvedInfos locs names).length = (resolvedNames locs names).length := by
  simp [resolvedInfos, resolvedNames]

lemma resolved_internal (locs : IconLocations) (names : List String) (i : Nat)
    (info : ThemeInfo)
    (h : (resolvedInfos locs names)[i]? = some (some info)) :
    (resolvedNames locs names)[i]? = some info.internal_name := by
  unfold resolvedInfos at h
  rw [List.getElem?_map] at h
  cases hp : (prunedOf (collectedMap locs names))[i]? with
  | none => rw [hp] at h; simp at h
  | some kv =>
    rw [hp] at h
    simp at h
    have hmem := List.getElem?_mem hp
    have hload := collectedMap_vals locs names (kv.1, some kv.2)
      (prunedOf_mem_rev _ _ _ (by simpa using hmem))
    have hint : kv.2.internal_name = kv.1 := load_internal locs kv.1 kv.2 (by
      simpa using hload.symm)
    unfold resolvedNames
    rw [List.getElem?_map, hp]
    simp [← h, hint]

lemma hic_exists (locs : IconLocations) (names : List String) (hi : ThemeInfo)
    (h : locs.load_single_theme "hicolor" = some hi) :
    ∃ h0 : Nat, hicIdx locs names = some h0 ∧
      (resolvedNames locs names)[h0]? = some "hicolor" := by
  have hmem : "hicolor" ∈ resolvedNames locs names := by
    have hvals : ∀ e ∈ collectThemes locs (collectFuel locs names) names [],
        e.2 = locs.load_single_theme e.1 := collect_vals locs _ _ _ (by simp)
    obtain ⟨v, hv, hveq⟩ := collect_mem locs (collectFuel locs ["hicolor"]) "hicolor" []
      (collectThemes locs (collectFuel locs names) names [])
      (by simp [collectFuel]) hvals
    rw [h] at hveq
    subst hveq
    have : ("hicolor", hi) ∈ prunedOf (collectedMap locs names) := by
      apply prunedOf_mem
      exact hv
    unfold resolvedNames
    exact List.mem_map.mpr ⟨("hicolor", hi), this, rfl⟩
  have hsome := position_isSome_of_mem _ _ hmem
  cases hp : position (resolvedNames locs names) "hicolor" with
  | none => rw [hp] at hsome; simp at hsome
  | some h0 =>
    exact ⟨h0, by simpa [hicIdx] using hp, position_get _ _ h0 hp⟩

lemma getElem?_some_lt {l : List α} {i : Nat} {a : α} (h : l[i]? = some a) :
    i < l.length := by
  by_contra hge
  rw [List.getElem?_eq_none_iff.mpr (by omega)] at h
  exact absurd h (by simp)

lemma zip_getElem?_inv (l1 : List α) (l2 : List β) :
    ∀ (i : Nat) (xy : α × β), (l1.zip l2)[i]? = some xy →
      l1[i]? = some xy.1 ∧ l2[i]? = some xy.2 := by
  induction l1 generalizing l2 with
  | nil => intro i xy h; simp at h
  | cons a as ih =>
    intro i xy h
    cases l2 with
    | nil => simp at h
    | cons b bs =>
      rw [List.zip_cons_cons] at h
      cases i with
      | zero =>
        simp at h
        subst h
        simp
      | succ i0 =>
        simp at h ⊢
        exact ih bs i0 xy h

lemma chainInsert_ok (tnames : List String) (inherits : List String) :
    ∀ chain : List Nat, chain.Nodup → (∀ x ∈ chain, x < tnames.length) →
      (chainInsertParents tnames inherits chain).Nodup ∧
      (∀ x ∈ chainInsertParents tnames inherits chain, x < tnames.length) ∧
      (∀ i ∈ chain, i ∈ chainInsertParents tnames inherits chain) := by
  unfold chainInsertParents
  induction inherits with
  | nil => intro chain h1 h2; exact ⟨h1, h2, fun i hi => hi⟩
  | cons p ps ih =>
    intro chain h1 h2
    rw [List.foldl_cons]
    cases hp : position tnames p with
    | none => exact ih chain h1 h2
    | some pidx =>
      have hplt : pidx < tnames.length := position_bound _ _ _ hp
      have hnd : ((chain.filter (fun idx => idx ≠ pidx)) ++ [pidx]).Nodup := by
        refine List.nodup_append.mpr ⟨List.Nodup.filter _ h1, by simp, ?_⟩
        intro a ha hb
        simp at hb
        subst hb
        have := List.of_mem_filter ha
        simp at this
      have hbd : ∀ x ∈ (chain.filter (fun idx => idx ≠ pidx)) ++ [pidx],
          x < tnames.length := by
        intro x hx
        rcases List.mem_append.mp hx with hf | hs
        · exact h2 x (List.mem_of_mem_filter hf)
        · simp at hs
          subst hs
          exact hplt
      obtain ⟨r1, r2, r3⟩ := ih _ hnd hbd
      refine ⟨r1, r2, ?_⟩
      intro i hi
      apply r3
      by_cases hip : i = pidx
      · subst hip
        exact List.mem_append_right _ (by simp)
      · exact List.mem_append_left _ (List.mem_filter.mpr ⟨hi, by simpa using hip⟩)

lemma buildChainLoop_ok (tnames : List String) (tinfos : List (Option ThemeInfo)) :
    ∀ (fuel : Nat) (chain : List Nat) (cursor : Nat),
      chain.Nodup → (∀ x ∈ chain, x < tnames.length) →
      (buildChainLoop tnames tinfos fuel chain cursor).Nodup ∧
      (∀ x ∈ buildChainLoop tnames tinfos fuel chain cursor, x < tnames.length) ∧
      (∀ i ∈ chain, i ∈ buildChainLoop tnames tinfos fuel chain cursor) := by
  intro fuel
  induction fuel with
  | zero => intro chain cursor h1 h2; exact ⟨h1, h2, fun i hi => hi⟩
  | succ f ih =>
    intro chain cursor h1 h2
    cases hc : chain[cursor]? with
    | none =>
      simp only [buildChainLoop, hc]
      exact ⟨h1, h2, fun i hi => hi⟩
    | some node_idx =>
      cases hti : tinfos[node_idx]? with
      | none =>
        simp only [buildChainLoop, hc, hti]
        exact ih chain (cursor + 1) h1 h2
      | some oinfo =>
        cases oinfo with
        | none =>
          simp only [buildChainLoop, hc, hti]
          exact ih chain (cursor + 1) h1 h2
        | some info =>
          simp only [buildChainLoop, hc, hti]
          obtain ⟨c1, c2, c3⟩ := chainInsert_ok tnames info.index.inherits chain h1 h2
          obtain ⟨r1, r2, r3⟩ := ih _ (cursor + 1) c1 c2
          exact ⟨r1, r2, fun i hi => r3 _ (c3 i hi)⟩

lemma buildChain_ok (tnames : List String) (tinfos : List (Option ThemeInfo))
    (hic : Option Nat) (i : Nat) (hi : i < tnames.length)
    (hh : ∀ h0, hic = some h0 → h0 < tnames.length) :
    (buildChain tnames tinfos hic i).Nodup ∧
    (∀ x ∈ buildChain tnames tinfos hic i, x < tnames.length) ∧
    i ∈ buildChain tnames tinfos hic i := by
  have hbase := buildChainLoop_ok tnames tinfos tnames.length [i] 0 (by simp)
    (by intro x hx; simp at hx; subst hx; exact hi)
  obtain ⟨b1, b2, b3⟩ := hbase
  have himem : i ∈ buildChainLoop tnames tinfos tnames.length [i] 0 := b3 i (by simp)
  unfold buildChain
  cases hic with
  | none => exact ⟨b1, b2, himem⟩
  | some h0 =>
    have hh0 : h0 < tnames.length := hh h0 rfl
    constructor
    · refine List.nodup_append.mpr ⟨List.Nodup.filter _ b1, by simp, ?_⟩
      intro a ha hb
      simp at hb
      subst hb
      have := List.of_mem_filter ha
      simp at this
    constructor
    · intro x hx
      rcases List.mem_append.mp hx with hf | hs
      · exact b2 x (List.mem_of_mem_filter hf)
      · simp at hs
        subst hs
        exact hh0
    · by_cases hih : i = h0
      · subst hih
        exact List.mem_append_right _ (by simp)
      · exact List.mem_append_left _ (List.mem_filter.mpr ⟨himem, by simpa using hih⟩)

lemma buildChain_last (tnames : List String) (tinfos : List (Option ThemeInfo))
    (h0 : Nat) (i : Nat) (hi : i < tnames.length) :
    (buildChain tnames tinfos (some h0) i).getLast? = some h0 ∧
    (i ≠ h0 → 2 ≤ (buildChain tnames tinfos (some h0) i).length) := by
  have hbase := buildChainLoop_ok tnames tinfos tnames.length [i] 0 (by simp)
    (by intro x hx; simp at hx; subst hx; exact hi)
  obtain ⟨b1, b2, b3⟩ := hbase
  have himem : i ∈ buildChainLoop tnames tinfos tnames.length [i] 0 := b3 i (by simp)
  unfold buildChain
  constructor
  · exact List.getLast?_concat _
  · intro hih
    have hf : i ∈ (buildChainLoop tnames tinfos tnames.length [i] 0).filter
        (fun idx => idx ≠ h0) := List.mem_filter.mpr ⟨himem, by simpa using hih⟩
    have hlen : 1 ≤ ((buildChainLoop tnames tinfos tnames.length [i] 0).filter
        (fun idx => idx ≠ h0)).length := List.length_pos.mpr (List.ne_nil_of_mem hf)
    have harith : (((buildChainLoop tnames tinfos tnames.length [i] 0).filter
        (fun idx => idx ≠ h0)) ++ [h0]).length =
        ((buildChainLoop tnames tinfos tnames.length [i] 0).filter
        (fun idx => idx ≠ h0)).length + 1 := by
      rw [List.length_append]
      rfl
    rw [harith]
    omega

lemma resolvedChains_getElem (locs : IconLocations) (names : List String) (i : Nat)
    (hi : i < (resolvedNames locs names).length) :
    (resolvedChains locs names)[i]? =
      some (buildChain (resolvedNames locs names) (resolvedInfos locs names)
        (hicIdx locs names) i) := by
  unfold resolvedChains
  rw [List.getElem?_map]
  simp [List.getElem?_range, hi]

lemma monoFull_refl (f : List (Option Theme)) : MonoFull f f :=
  ⟨rfl, fun _ _ h => h⟩

lemma monoFull_trans {f g h : List (Option Theme)}
    (h1 : MonoFull f g) (h2 : MonoFull g h) : MonoFull f h :=
  ⟨h1.1.trans h2.1, fun i t ht => h2.2 i t (h1.2 i t ht)⟩

lemma matStep_inv (tinfos0 : List (Option ThemeInfo)) (chains : List (List Nat))
    (st st' : MatSt) (idx : Nat)
    (hinv : MatInv tinfos0 chains st) (hstep : matStep chains st idx = some st') :
    MatInv tinfos0 chains st' ∧ MonoFull st.2 st'.2 := by
  obtain ⟨hl1, hl2, htake, hiff, hchar⟩ := hinv
  unfold matStep at hstep
  cases h1 : st.1[idx]? with
  | none => rw [h1] at hstep; simp at hstep
  | some oinfo =>
    rw [h1] at hstep
    cases oinfo with
    | none =>
      injection hstep with hstep
      subst hstep
      exact ⟨⟨hl1, hl2, htake, hiff, hchar⟩, monoFull_refl _⟩
    | some info =>
      cases h2 : chains[idx]? with
      | none => rw [h2] at hstep; simp at hstep
      | some ch =>
        rw [h2] at hstep
        dsimp only at hstep
        cases h3 : mapMopt (fun p => (st.2[p]?).bind id) (ch.drop 1) with
        | none => rw [h3] at hstep; simp at hstep
        | some parents =>
          rw [h3] at hstep
          injection hstep with hstep
          subst hstep
          have hidx1 : idx < st.1.length := getElem?_some_lt h1
          have hidx2 : idx < st.2.length := by omega
          have hinfo0 : tinfos0[idx]? = some (some info) := by
            rcases htake idx with hnone | heq
            · rw [h1] at hnone; simp at hnone
            · rw [← heq, h1]
          have hfullidx : st.2[idx]? = some none := by
            cases hv : st.2[idx]? with
            | none =>
              rw [List.getElem?_eq_none_iff] at hv
              omega
            | some v =>
              cases v with
              | none => rfl
              | some t =>
                have := (hiff idx).mpr ⟨t, hv⟩
                rw [h1] at this
                simp at this
          have hidxnot : idx ∉ ch.drop 1 := by
            intro hmem
            have hnone : (fun p => (st.2[p]?).bind id) idx = none := by
              simp [hfullidx]
            rw [mapMopt_eq_none _ _ idx hmem hnone] at h3
            exact absurd h3 (by simp)
          have hmono : MonoFull st.2 (st.2.set idx (some (Theme.mk info parents))) := by
            refine ⟨(List.length_set st.2 idx _).symm, ?_⟩
            intro i t ht
            by_cases hii : i = idx
            · subst hii
              rw [ht] at hfullidx
              simp at hfullidx
            · rw [List.getElem?_set_ne (by omega)]
              exact ht
          have hupg : ∀ (a : Nat) (b : Theme),
              (st.2[a]?).bind id = some b →
              ((st.2.set idx (some (Theme.mk info parents)))[a]?).bind id = some b := by
            intro a b hab
            cases hv : st.2[a]? with
            | none => rw [hv] at hab; simp at hab
            | some v =>
              rw [hv] at hab
              simp at hab
              subst hab
              rw [hmono.2 a b hv]
              rfl
          refine ⟨⟨?_, ?_, ?_, ?_, ?_⟩, hmono⟩
          · rw [List.length_set]; exact hl1
          · rw [List.length_set]; exact hl2
          · intro i
            by_cases hii : i = idx
            · subst hii
              left
              simp [List.getElem?_set_self, hidx1]
            · rw [List.getElem?_set_ne (by omega)]
              exact htake i
          · intro i
            by_cases hii : i = idx
            · subst hii
              constructor
              · intro _
                exact ⟨Theme.mk info parents, by simp [List.getElem?_set_self, hidx2]⟩
              · intro _
                simp [List.getElem?_set_self, hidx1]
            · rw [List.getElem?_set_ne (show idx ≠ i from by omega),
                List.getElem?_set_ne (show idx ≠ i from by omega)]
              exact hiff i
          · intro i t ht
            by_cases hii : i = idx
            · subst hii
              rw [List.getElem?_set_self' ..] at ht
              simp [hidx2] at ht
              refine ⟨info, ch, parents, hinfo0, h2, hidxnot, ?_, ht.symm⟩
              exact mapMopt_mono _ _ hupg _ _ h3
            · rw [List.getElem?_set_ne (by omega)] at ht
              obtain ⟨info', ch', ps', hi', hc', hn', hm', he'⟩ := hchar i t ht
              exact ⟨info', ch', ps', hi', hc', hn', mapMopt_mono _ _ hupg _ _ hm', he'⟩

lemma foldMopt_matStep_inv (tinfos0 : List (Option ThemeInfo))
    (chains : List (List Nat)) :
    ∀ (l : List Nat) (st st' : MatSt), MatInv tinfos0 chains st →
      foldMopt (matStep chains) st l = some st' →
      MatInv tinfos0 chains st' ∧ MonoFull st.2 st'.2 := by
  intro l
  induction l with
  | nil =>
    intro st st' hinv h
    simp [foldMopt] at h
    subst h
    exact ⟨hinv, monoFull_refl _⟩
  | cons a as ih =>
    intro st st' hinv h
    unfold foldMopt at h
    cases hs : matStep chains st a with
    | none => rw [hs] at h; simp at h
    | some st1 =>
      rw [hs] at h
      obtain ⟨hinv1, hm1⟩ := matStep_inv tinfos0 chains st st1 a hinv hs
      obtain ⟨hinv2, hm2⟩ := ih st1 st' hinv1 h
      exact ⟨hinv2, monoFull_trans hm1 hm2⟩

lemma runChains_inv (tinfos0 : List (Option ThemeInfo)) (chains : List (List Nat)) :
    ∀ (cs : List (List Nat)) (st st' : MatSt), MatInv tinfos0 chains st →
      foldMopt (fun s ch => foldMopt (matStep chains) s ch.reverse) st cs = some st' →
      MatInv tinfos0 chains st' := by
  intro cs
  induction cs with
  | nil =>
    intro st st' hinv h
    simp [foldMopt] at h
    subst h
    exact hinv
  | cons c cs' ih =>
    intro st st' hinv h
    unfold foldMopt at h
    cases hs : foldMopt (matStep chains) st c.reverse with
    | none => rw [hs] at h; simp at h
    | some st1 =>
      rw [hs] at h
      obtain ⟨hinv1, _⟩ := foldMopt_matStep_inv tinfos0 chains c.reverse st st1 hinv hs
      exact ih st1 st' hinv1 h

lemma matInv_init (tinfos0 : List (Option ThemeInfo)) (chains : List (List Nat))
    (hall : ∀ (i : Nat) (v : Option ThemeInfo), tinfos0[i]? = some v → v.isSome = true) :
    MatInv tinfos0 chains (tinfos0, List.replicate tinfos0.length none) := by
  refine ⟨rfl, by simp, fun i => Or.inr rfl, ?_, ?_⟩
  · intro i
    constructor
    · intro h
      have := hall i none h
      simp at this
    · intro ⟨t, ht⟩
      have hlt := getElem?_some_lt ht
      rw [List.length_replicate] at hlt
      rw [List.getElem?_replicate] at ht
      simp [hlt] at ht
  · intro i t ht
    have hlt := getElem?_some_lt ht
    rw [List.length_replicate] at hlt
    rw [List.getElem?_replicate] at ht
    simp [hlt] at ht

lemma mapMopt_congr {α β : Type} (f f' : α → Option β) :
    ∀ l : List α, (∀ a ∈ l, f a = f' a) → mapMopt f l = mapMopt f' l := by
  intro l
  induction l with
  | nil => intro _; rfl
  | cons x xs ih =>
    intro h
    unfold mapMopt
    rw [h x (by simp), ih (fun a ha => h a (by simp [ha]))]

lemma getD_of_getElem? (l : List Theme) (p : Nat) (t : Theme)
    (h : l[p]? = some t) : l.getD p defaultTheme = t := by
  rw [List.getD_eq_getElem?_getD, h]
  rfl

/-- Structural characterization of every successful `resolveOnly` run: the
result zips the pruned names with nodes; every node was built from its
own chain's tail (in order, over the final nodes), its own index not in
that tail. -/
lemma resolve_success_main (locs : IconLocations) (names : List String)
    (m : List (String × Theme)) (h : resolveOnly locs names = some m) :
    ∃ fulls : List Theme,
      m = (resolvedNames locs names).zip fulls ∧
      fulls.length = (resolvedNames locs names).length ∧
      ∀ i : Nat, i < fulls.length →
        ∃ info ch,
          (resolvedInfos locs names)[i]? = some (some info) ∧
          (resolvedChains locs names)[i]? = some ch ∧
          i ∉ ch.drop 1 ∧
          (∀ p ∈ ch.drop 1, p < fulls.length) ∧
          fulls[i]? = some (Theme.mk info
            ((ch.drop 1).map (fun p => fulls.getD p defaultTheme))) := by
  simp only [resolveOnly] at h
  cases hrun : runChains (resolvedChains locs names)
      (resolvedInfos locs names,
        List.replicate (resolvedNames locs names).length none) with
  | none => rw [hrun] at h; simp at h
  | some st =>
    rw [hrun] at h
    dsimp only at h
    cases hmap : mapMopt id st.2 with
    | none => rw [hmap] at h; simp at h
    | some fulls =>
      rw [hmap] at h
      simp at h
      subst h
      have hinit : MatInv (resolvedInfos locs names) (resolvedChains locs names)
          (resolvedInfos locs names,
            List.replicate (resolvedNames locs names).length none) := by
        rw [← resolved_lengths locs names]
        apply matInv_init
        intro i v hv
        unfold resolvedInfos at hv
        rw [List.getElem?_map] at hv
        cases hp : (prunedOf (collectedMap locs names))[i]? with
        | none => rw [hp] at hv; simp at hv
        | some kv => rw [hp] at hv; simp at hv; simp [← hv]
      have hst : MatInv (resolvedInfos locs names) (resolvedChains locs names) st := by
        unfold runChains at hrun
        exact runChains_inv _ _ _ _ _ hinit hrun
      obtain ⟨hs1, hs2, _, _, hchar⟩ := hst
      have hst2 : st.2 = fulls.map some := mapMopt_id_eq st.2 fulls hmap
      have hflen : fulls.length = (resolvedNames locs names).length := by
        have : st.2.length = fulls.length := by rw [hst2, List.length_map]
        rw [← this, hs2, resolved_lengths]
      refine ⟨fulls, rfl, hflen, ?_⟩
      intro i hif
      have hfi : ∃ t, fulls[i]? = some t := ⟨fulls[i], List.getElem?_eq_getElem hif⟩
      obtain ⟨t, ht⟩ := hfi
      have hsti : st.2[i]? = some (some t) := by
        rw [hst2, List.getElem?_map, ht]
        rfl
      obtain ⟨info, ch, ps, hinfo, hch, hnotin, hm, he⟩ := hchar i t hsti
      have hg : ∀ p ∈ ch.drop 1, (st.2[p]?).bind id = fulls[p]? := by
        intro p _
        rw [hst2, List.getElem?_map]
        cases fulls[p]? <;> rfl
      have hm2 : mapMopt (fun p => fulls[p]?) (ch.drop 1) = some ps := by
        rw [← mapMopt_congr _ _ _ hg]
        exact hm
      have hbnd : ∀ p ∈ ch.drop 1, p < fulls.length := by
        intro p hp
        by_contra hge
        have : fulls[p]? = none := List.getElem?_eq_none_iff.mpr (by omega)
        rw [mapMopt_eq_none _ _ p hp this] at hm2
        exact absurd hm2 (by simp)
      have hps : ps = (ch.drop 1).map (fun p => fulls.getD p defaultTheme) := by
        apply mapMopt_map_eq _ _ _ _ hm2
        intro a b hab
        exact getD_of_getElem? fulls a b hab
      exact ⟨info, ch, hinfo, hch, hnotin, hbnd, by rw [ht, he, hps]⟩

/-- C4 (amended): if hicolor has a loadable descriptor, then every
ThemeNode in the resolved map other than the hicolor node itself has an
ordered ancestor list ending with the hicolor node as its last element,
even when hicolor is not declared as a parent anywhere in the chain.
(The hicolor node itself is the exception the counterexample forces: its
own ancestor list is empty when it declares no parents.) -/
theorem c4_fallback_last (locs : IconLocations) (names : List String)
    (m : List (String × Theme)) (hres : resolveOnly locs names = some m)
    (hi : ThemeInfo) (hload : locs.load_single_theme "hicolor" = some hi)
    (k : String) (node : Theme) (hmem : (k, node) ∈ m) (hk : k ≠ "hicolor") :
    ∃ hnode, lookupAssoc m "hicolor" = some hnode ∧
      node.inherits_from.getLast? = some hnode := by
  obtain ⟨fulls, hm, hlen, hchar⟩ := resolve_success_main locs names m hres
  subst hm
  obtain ⟨i, hni, hfi⟩ := mem_zip_getElem _ _ k node hmem
  have hilen : i < fulls.length := getElem?_some_lt hfi
  obtain ⟨info, ch, hinfo, hch, hnotin, hbnd, hfull⟩ := hchar i hilen
  have hnode : node = Theme.mk info
      ((ch.drop 1).map (fun p => fulls.getD p defaultTheme)) := by
    rw [hfi] at hfull
    injection hfull
  obtain ⟨h0, hhic, hh0name⟩ := hic_exists locs names hi hload
  have hpos : position (resolvedNames locs names) "hicolor" = some h0 := by
    simpa [hicIdx] using hhic
  have hh0lt : h0 < (resolvedNames locs names).length := position_bound _ _ h0 hpos
  have hch_eq : ch = buildChain (resolvedNames locs names) (resolvedInfos locs names)
      (some h0) i := by
    have hcg := resolvedChains_getElem locs names i (by omega)
    rw [hhic] at hcg
    rw [hch] at hcg
    injection hcg
  have hineq : i ≠ h0 := by
    intro heq
    subst heq
    rw [hh0name] at hni
    injection hni with hni
    exact hk hni.symm
  have hlast := buildChain_last (resolvedNames locs names) (resolvedInfos locs names)
    h0 i (by omega)
  have hdrop : (ch.drop 1).getLast? = some h0 := by
    rw [hch_eq, getLast?_drop_one _ (hlast.2 hineq)]
    exact hlast.1
  have hh0f : h0 < fulls.length := by omega
  obtain ⟨th, hth⟩ : ∃ t, fulls[h0]? = some t := ⟨fulls[h0], List.getElem?_eq_getElem hh0f⟩
  have hgetd : fulls.getD h0 defaultTheme = th := getD_of_getElem? fulls h0 th hth
  refine ⟨th, ?_, ?_⟩
  · unfold lookupAssoc
    have hz : ((resolvedNames locs names).zip fulls)[h0]? = some ("hicolor", th) :=
      zip_getElem? _ _ h0 _ _ hh0name hth
    rw [find?_of_first _ _ h0 _ hz (by simp) ?first]
    · rfl
    case first =>
      intro j b hj hb
      have hb1 := (zip_getElem?_inv _ _ j b hb).1
      have hne := position_first (resolvedNames locs names) "hicolor" h0 hpos j hj
      refine beq_eq_false_iff_ne.mpr ?_
      intro he
      apply hne
      rw [hb1, he]
  · rw [hnode]
    show (List.map (fun p => fulls.getD p defaultTheme) (ch.drop 1)).getLast? = some th
    rw [List.getLast?_map, hdrop]
    show some (fulls.getD h0 defaultTheme) = some th
    rw [hgetd]

/-- C4, witness at a concrete input: a child theme with no declared
parents plus hicolor; the child node's ancestor list ends with the
hicolor node. -/
theorem c4_fallback_last_witness :
    IconLocations.load_single_theme childLocs "hicolor" = some hInfo ∧
      ("child" : String) ≠ "hicolor" ∧
      ∃ hnode,
        lookupAssoc [("child", Theme.mk childInfo [Theme.mk hInfo []]),
          ("hicolor", Theme.mk hInfo [])] "hicolor" = some hnode ∧
        (Theme.mk childInfo [Theme.mk hInfo []]).inherits_from.getLast? = some hnode :=
  ⟨rfl, by decide,
    c4_fallback_last childLocs ["child"]
      [("child", Theme.mk childInfo [Theme.mk hInfo []]),
        ("hicolor", Theme.mk hInfo [])]
      rfl hInfo rfl "child" (Theme.mk childInfo [Theme.mk hInfo []])
      (List.Mem.head _) (by decide)⟩

/-! ## Claim C8 -/

lemma theme_mem_inherits_sizeOf_lt (t p : Theme) (h : p ∈ t.inherits_from) :
    sizeOf p < sizeOf t := by
  cases t with
  | mk info ps =>
    have h1 : p ∈ ps := by simpa [Theme.inherits_from] using h
    have h2 := List.sizeOf_lt_of_mem h1
    have h3 : sizeOf (Theme.mk info ps) = 1 + sizeOf info + sizeOf ps := by simp
    omega

lemma ancestor_sizeOf_lt {t q : Theme} (h : Ancestor t q) : sizeOf q < sizeOf t := by
  induction h with
  | direct hm => exact theme_mem_inherits_sizeOf_lt _ _ hm
  | step hm _ ih => exact lt_trans ih (theme_mem_inherits_sizeOf_lt _ _ hm)

/-- C8: in every resolved theme map, each node's ordered ancestor list has
no duplicate nodes and does not contain the node itself, and transitively
following ancestor references never returns to the starting node. -/
theorem c8_acyclic_no_duplicates (locs : IconLocations) (names : List String)
    (m : List (String × Theme)) (hres : resolveOnly locs names = some m)
    (k : String) (node : Theme) (hmem : (k, node) ∈ m) :
    node.inherits_from.Nodup ∧ node ∉ node.inherits_from ∧ ¬ Ancestor node node := by
  obtain ⟨fulls, hm, hlen, hchar⟩ := resolve_success_main locs names m hres
  subst hm
  obtain ⟨i, hni, hfi⟩ := mem_zip_getElem _ _ k node hmem
  have hilen : i < fulls.length := getElem?_some_lt hfi
  obtain ⟨info, ch, hinfo, hch, hnotin, hbnd, hfull⟩ := hchar i hilen
  have hnode : node = Theme.mk info
      ((ch.drop 1).map (fun p => fulls.getD p defaultTheme)) := by
    rw [hfi] at hfull
    injection hfull
  have hch_eq : ch = buildChain (resolvedNames locs names) (resolvedInfos locs names)
      (hicIdx locs names) i := by
    have hcg := resolvedChains_getElem locs names i (by omega)
    rw [hch] at hcg
    injection hcg
  have hchain_ok := buildChain_ok (resolvedNames locs names) (resolvedInfos locs names)
    (hicIdx locs names) i (by omega)
    (fun h0 hh0 => position_bound _ _ h0 (by simpa [hicIdx] using hh0))
  have hnd_ch : ch.Nodup := by rw [hch_eq]; exact hchain_ok.1
  have hnd_drop : (ch.drop 1).Nodup := List.Nodup.sublist (List.drop_sublist 1 ch) hnd_ch
  have hname_at : ∀ p : Nat, p < fulls.length → ∀ t : Theme, fulls[p]? = some t →
      (resolvedNames locs names)[p]? = some t.info.internal_name := by
    intro p hp t hpt
    obtain ⟨infp, chp, hip, _, _, _, hf⟩ := hchar p hp
    rw [hpt] at hf
    injection hf with hf
    subst hf
    exact resolved_internal locs names p infp hip
  have hinj : ∀ p ∈ ch.drop 1, ∀ q ∈ ch.drop 1,
      fulls.getD p defaultTheme = fulls.getD q defaultTheme → p = q := by
    intro p hp q hq heq
    have hpl := hbnd p hp
    have hql := hbnd q hq
    obtain ⟨tp, htp⟩ : ∃ t, fulls[p]? = some t := ⟨fulls[p], List.getElem?_eq_getElem hpl⟩
    obtain ⟨tq, htq⟩ : ∃ t, fulls[q]? = some t := ⟨fulls[q], List.getElem?_eq_getElem hql⟩
    rw [getD_of_getElem? fulls p tp htp, getD_of_getElem? fulls q tq htq] at heq
    subst heq
    exact nodup_getElem?_inj _ (resolvedNames_nodup locs names) p q _
      (hname_at p hpl tp htp) (hname_at q hql tp htq)
  refine ⟨?_, ?_, fun h => absurd (ancestor_sizeOf_lt h) (lt_irrefl _)⟩
  · rw [hnode]
    show (List.map (fun p => fulls.getD p defaultTheme) (ch.drop 1)).Nodup
    exact List.Nodup.map_on hinj hnd_drop
  · intro hin
    have hlist : node.inherits_from = (ch.drop 1).map (fun p => fulls.getD p defaultTheme) := by
      rw [hnode]
      rfl
    rw [hlist] at hin
    obtain ⟨p, hp, hfp⟩ := List.mem_map.mp hin
    have hpl := hbnd p hp
    obtain ⟨tp, htp⟩ : ∃ t, fulls[p]? = some t := ⟨fulls[p], List.getElem?_eq_getElem hpl⟩
    rw [getD_of_getElem? fulls p tp htp] at hfp
    rw [hfp] at htp
    have h1 := hname_at p hpl node htp
    have h2 := hname_at i hilen node hfi
    have := nodup_getElem?_inj _ (resolvedNames_nodup locs names) p i _ h1 h2
    subst this
    exact hnotin hp

/-- C8, witness at a concrete input: the child node of the two-theme
example has a duplicate-free, self-free ancestor list and is not its own
transitive ancestor. -/
theorem c8_acyclic_no_duplicates_witness :
    (Theme.mk childInfo [Theme.mk hInfo []]).inherits_from.Nodup ∧
      Theme.mk childInfo [Theme.mk hInfo []] ∉
        (Theme.mk childInfo [Theme.mk hInfo []]).inherits_from ∧
      ¬ Ancestor (Theme.mk childInfo [Theme.mk hInfo []])
        (Theme.mk childInfo [Theme.mk hInfo []]) :=
  c8_acyclic_no_duplicates childLocs ["child"]
    [("child", Theme.mk childInfo [Theme.mk hInfo []]),
      ("hicolor", Theme.mk hInfo [])]
    rfl "child" (Theme.mk childInfo [Theme.mk hInfo []]) (List.Mem.head _)
